import Mathlib

/-!
Verification of the sago scheduling/execution engine against its
specification.  The engine (dependency-graph construction, cycle
detection, wave partitioning, cache, execution coordinator, wave runner)
was removed from the repository sources (CHANGELOG 0.2.1 removed
`agents/dependencies.py`; `agents/orchestrator.py` and the cache utilities
are likewise absent from the tree, which retains only documentation), so
the definitions below are modelled from the specification (spec.md
sections 3 to 7) and the repository documentation, as noted on each
definition.
-/

namespace Sago

/-- Modelled from the spec: the immutable `Task` record of section 3 of the
specification (the Pydantic task model parsed from PLAN.md is not in the
source tree).  `files` is ordered: by convention the first entry is the file
the task produces, the remaining entries are inputs.  `dependsOn` is the
optional `depends_on` attribute of explicit dependency ids. -/
structure Task where
  id : String
  name : String
  files : List String
  action : String
  verify : String
  doneText : String
  dependsOn : Option (List String)
deriving Repr, DecidableEq

/-- The file a task produces: its first listed file, when any. -/
def producedFile (t : Task) : Option String :=
  t.files.head?

/-- The input files of a task: every listed file except the first. -/
def inputFiles (t : Task) : List String :=
  t.files.tail

/-- The ids of a list of tasks, in order. -/
def idsOf (l : List Task) : List String :=
  l.map (fun t => t.id)

/-- Whether some task in the list carries the given id. -/
def hasId (l : List Task) (i : String) : Bool :=
  l.any (fun t => t.id == i)

/-- Modelled from the spec: step 1 of `Build` (section 4.1) scans the
producer map for two tasks claiming the same produced file; the scan
returns the offending file and the two task ids when it finds one. -/
def dupProducer : List Task → Option (String × String × String)
  | [] => none
  | t :: rest =>
    match producedFile t with
    | none => dupProducer rest
    | some f =>
      match rest.find? (fun u => producedFile u == some f) with
      | some u => some (f, t.id, u.id)
      | none => dupProducer rest

/-- The producer of a file: the task whose first listed file it is. -/
def producerOf (ts : List Task) (f : String) : Option Task :=
  ts.find? (fun u => producedFile u == some f)

/-- Modelled from the spec: inferred dependency edges (section 3,
DependencyEdge): for every file F in `t.files[1:]`, if some other task U
lists F as its `files[0]`, the id of U is a dependency of `t`. -/
def inferredDeps (ts : List Task) (t : Task) : List String :=
  (inputFiles t).filterMap (fun f =>
    match producerOf ts f with
    | none => none
    | some u => if u.id == t.id then none else some u.id)

/-- Modelled from the spec: the direct dependencies of a task are its
explicit `depends_on` ids (restricted to ids that exist in the task set,
since edges join tasks of the set) together with the inferred file-based
edges. -/
def depIds (ts : List Task) (t : Task) : List String :=
  (t.dependsOn.getD []).filter (fun i => hasId ts i) ++ inferredDeps ts t

/-- The dependency-edge relation on ids: `edgeB ts a b` holds when the task
with id `a` has `b` among its direct dependencies. -/
def edgeB (ts : List Task) (a b : String) : Bool :=
  ts.any (fun t => t.id == a && (depIds ts t).contains b)

/-- A task set is acyclic when its dependency edges admit a topological
rank, the standard characterisation of a finite directed graph with no
directed cycle. -/
def Acyclic (ts : List Task) : Prop :=
  ∃ rank : String → Nat, ∀ a b, edgeB ts a b = true → rank b < rank a

/-- A chain of dependency edges between consecutive ids of a list. -/
def depChainB (ts : List Task) : List String → Bool
  | [] => true
  | [_] => true
  | a :: b :: rest => edgeB ts a b && depChainB ts (b :: rest)

/-- A directed cycle in the dependency edges: a chain of length at least
two whose first and last ids coincide. -/
def depCycleB (ts : List Task) (l : List String) : Bool :=
  decide (2 ≤ l.length) && depChainB ts l && (l.headD "" == l.getLastD "")

/-- Modelled from the spec: the fatal graph-construction errors of
section 7 raised by the missing `agents/dependencies.py`:
`DuplicateProducerError` (two tasks claim the same produced file) and
`CircularDependencyError` (reporting the ids still unassigned). -/
inductive BuildError where
  | duplicateProducer (file : String) (firstId : String) (secondId : String)
  | circularDependency (cyclePath : List String)
deriving Repr, DecidableEq

/-- A task is ready in a Kahn round when none of its direct dependencies
is still among the remaining tasks. -/
def isReadyB (ts rem : List Task) (t : Task) : Bool :=
  (depIds ts t).all (fun d => !(hasId rem d))

/-- Modelled from the spec: the Kahn-style layering loop of `Layer`
(section 4.2).  Each round removes the tasks whose dependencies are all
satisfied (the in-degree-zero set) as the next wave, keeping insertion
order within a wave; if no task is ready while tasks remain, the remaining
ids are reported as a `CircularDependencyError`.  The fuel argument bounds
the number of rounds; `Layer` supplies enough fuel for any terminating
run. -/
def layerAux (ts : List Task) : Nat → List Task → Except BuildError (List (List Task))
  | _, [] => Except.ok []
  | 0, rem => Except.error (BuildError.circularDependency (idsOf rem))
  | fuel + 1, rem =>
    let ready := rem.filter (fun t => isReadyB ts rem t)
    if ready.isEmpty then
      Except.error (BuildError.circularDependency (idsOf rem))
    else
      match layerAux ts fuel (rem.filter (fun t => !(isReadyB ts rem t))) with
      | Except.ok ws => Except.ok (ready :: ws)
      | Except.error e => Except.error e

/-- Modelled from the spec: `Layer(graph)` of section 4.2, producing the
ordered list of waves or a `CircularDependencyError`. -/
def Layer (ts : List Task) : Except BuildError (List (List Task)) :=
  layerAux ts ts.length ts

/-- Modelled from the spec: `Build(tasks)` of section 4.1: first the
duplicate-producer check of the producer map, then cycle detection.  The
source describes the cycle check as an iterative three-colour DFS; it is
modelled here by the same Kahn peeling used by `Layer`, which fails in
exactly the same situations (some task set remains in which every task has
a remaining dependency, i.e. the edges contain a directed cycle), so the
success/error behaviour observed by every caller is preserved. -/
def Build (ts : List Task) : Except BuildError (List Task) :=
  match dupProducer ts with
  | some (f, i, j) => Except.error (BuildError.duplicateProducer f i j)
  | none =>
    match Layer ts with
    | Except.ok _ => Except.ok ts
    | Except.error e => Except.error e

/-- The 1-based wave number of an id inside a wave list: the index of the
first wave containing a task with that id. -/
def waveNumber (ws : List (List Task)) (i : String) : Option Nat :=
  match ws with
  | [] => none
  | w :: rest =>
    if hasId w i then some 1 else (waveNumber rest i).map (fun k => k + 1)

/-- The maximum of a list of naturals, zero for the empty list. -/
def natMax (l : List Nat) : Nat :=
  l.foldr max 0

/-- Modelled from the spec: the classified-failure taxonomy of section 7
produced by the missing error classifier of the orchestrator: import,
syntax, type, name and indentation errors, test failures, the unknown
bucket, plus the task-local `VerificationTimeoutError` and
`ForbiddenVerifyCommandError`. -/
inductive ErrorClass where
  | importError
  | syntaxError
  | typeError
  | nameError
  | indentationError
  | testFailure
  | verificationTimeout
  | forbiddenVerifyCommand
  | unknown
deriving Repr, DecidableEq

/-- Whether the pattern occurs as a contiguous subsequence of the list. -/
def listHasSub (pat : List Char) : List Char → Bool
  | [] => pat.isEmpty
  | c :: rest => pat.isPrefixOf (c :: rest) || listHasSub pat rest

/-- Whether the second string occurs inside the first. -/
def strHasSub (s pat : String) : Bool :=
  listHasSub pat.data s.data

/-- Modelled from the spec: textual inspection of captured error output
(section 4.4) classifying a failure into the fixed taxonomy; keyword
buckets follow the README list (import error, syntax error, type error,
name error, indentation error, test failure, or unknown).  The indentation
check precedes the syntax check because Python reports indentation errors
as a refinement of syntax errors. -/
def classify (out : String) : ErrorClass :=
  if strHasSub out "ImportError" || strHasSub out "ModuleNotFoundError" then
    ErrorClass.importError
  else if strHasSub out "IndentationError" then ErrorClass.indentationError
  else if strHasSub out "SyntaxError" then ErrorClass.syntaxError
  else if strHasSub out "TypeError" then ErrorClass.typeError
  else if strHasSub out "NameError" then ErrorClass.nameError
  else if strHasSub out "AssertionError" || strHasSub out "FAILED" then
    ErrorClass.testFailure
  else ErrorClass.unknown

/-- Splitting a character list into space-separated words. -/
def splitWordsAux : List Char → List Char → List (List Char)
  | [], acc => [acc.reverse]
  | c :: rest, acc =>
    if c.toNat = 32 then acc.reverse :: splitWordsAux rest []
    else splitWordsAux rest (c :: acc)

/-- The space-separated words of a command string. -/
def cmdWords (s : String) : List String :=
  (splitWordsAux s.data []).map String.mk

/-- Modelled from the spec: the verifier command denylist check of
section 6 (the missing `agents/verifier.py` blocklist of destructive shell
commands such as rm, dd, shutdown): a command matches when any of its
words is a denylisted word. -/
def isForbidden (deny : List String) (cmd : String) : Bool :=
  (cmdWords cmd).any (fun w => deny.contains w)

/-- The outcome of one invocation of the external Executor collaborator
(section 6): success, or a generation error carrying its message. -/
inductive ExecOutcome where
  | ok
  | genError (msg : String)
deriving Repr, DecidableEq

/-- The outcome of one subprocess run of the external Verifier
collaborator (section 6): an exit code with captured output, or a
timeout. -/
inductive VerifyRun where
  | exit (code : Nat) (output : String)
  | timedOut
deriving Repr, DecidableEq

/-- Modelled from the spec: the opaque external collaborators of
section 6, as oracles indexed by task id and attempt number.  `exec` is
the Executor, `output` the content it writes to the task's produced file,
and `verifyRun` the Verifier's subprocess result. -/
structure Behavior where
  exec : String → Nat → ExecOutcome
  output : String → String
  verifyRun : String → Nat → VerifyRun

/-- The per-task final status of the execution state machine
(section 4.4); `skippedCached` is Skipped(cached), `skippedBlocked` is
Skipped(blocked). -/
inductive TaskStatus where
  | succeeded
  | failed
  | skippedCached
  | skippedBlocked
deriving Repr, DecidableEq

/-- The observable result of driving one task through the coordinator:
final status, retry count, classified error, and the numbers of executor
invocations, verifier invocations and verifier subprocess runs, plus
whether any attempt wrote the task's produced file. -/
structure CoordResult where
  status : TaskStatus
  retryCount : Nat
  errorClass : Option ErrorClass
  execCalls : Nat
  verifyCalls : Nat
  subprocCalls : Nat
  wroteFile : Bool
deriving Repr, DecidableEq

/-- The outcome and cost of a single attempt of the coordinator. -/
structure AttemptInfo where
  failure : Option ErrorClass
  execs : Nat
  verifies : Nat
  subprocs : Nat
  wrote : Bool
deriving Repr, DecidableEq

/-- Modelled from the spec: one attempt of the per-task state machine of
section 4.4: invoke the Executor (a generation error is classified like a
verification failure and the Verifier is not reached), then run the
Verifier subprocess; exit code zero succeeds, a non-zero exit is
classified from the captured output, a timeout is a
`VerificationTimeoutError`. -/
def attemptOnce (b : Behavior) (t : Task) (k : Nat) : AttemptInfo :=
  match b.exec t.id k with
  | ExecOutcome.genError msg => ⟨some (classify msg), 1, 0, 0, false⟩
  | ExecOutcome.ok =>
    match b.verifyRun t.id k with
    | VerifyRun.timedOut => ⟨some ErrorClass.verificationTimeout, 1, 1, 1, true⟩
    | VerifyRun.exit 0 _ => ⟨none, 1, 1, 1, true⟩
    | VerifyRun.exit (_ + 1) out => ⟨some (classify out), 1, 1, 1, true⟩

/-- Modelled from the spec: the retry loop of section 4.4: a failed
attempt is retried while retry budget remains; exhausting the budget
records Failed with the last classified error; `remaining` is the number
of retries still allowed and `k` the current 0-based attempt index. -/
def runAttempts (b : Behavior) (t : Task) : Nat → Nat → CoordResult
  | 0, k =>
    match attemptOnce b t k with
    | ⟨none, e, v, s, w⟩ => ⟨TaskStatus.succeeded, k, none, e, v, s, w⟩
    | ⟨some err, e, v, s, w⟩ => ⟨TaskStatus.failed, k, some err, e, v, s, w⟩
  | r + 1, k =>
    match attemptOnce b t k with
    | ⟨none, e, v, s, w⟩ => ⟨TaskStatus.succeeded, k, none, e, v, s, w⟩
    | ⟨some _, e, v, s, w⟩ =>
      let rest := runAttempts b t r (k + 1)
      ⟨rest.status, rest.retryCount, rest.errorClass, e + rest.execCalls,
        v + rest.verifyCalls, s + rest.subprocCalls, w || rest.wroteFile⟩

/-- The project file system, mapping a path to its byte contents. -/
abbrev Fs := String → String

/-- Modelled from the spec: the cache key of section 4.3.  The
cryptographic digest over the length-prefixed canonical concatenation of
task id, action text, verify command and the input-file contents in
declared order is modelled by its preimage: the length prefixes make the
digest input determine exactly this tuple, so two keys are equal precisely
when the tuple components are. -/
structure CacheKey where
  taskId : String
  action : String
  verify : String
  inputs : List String
deriving Repr, DecidableEq

/-- The cache key of a task under the current file system. -/
def cacheKey (fs : Fs) (t : Task) : CacheKey :=
  ⟨t.id, t.action, t.verify, (inputFiles t).map fs⟩

/-- Modelled from the spec: the CacheStore contents.  Section 4.4 triggers
`Store` on successful verification only, so every entry records a
Succeeded outcome and the store is the set of keys of previously succeeded
tasks; the entry payload (summary, timestamp) plays no role in the claims. -/
abbrev Cache := List CacheKey

/-- Modelled from the spec: the run-level knobs of the start-run entry
point of section 6: retry budget, continue-on-failure flag, cache-enabled
flag and the verifier denylist. -/
structure RunConfig where
  maxRetries : Nat
  continueOnFailure : Bool
  cacheEnabled : Bool
  deny : List String
deriving Repr, DecidableEq

/-- The state returned by the coordinator for one task: its result and
the updated cache and file system. -/
structure StepOut where
  result : CoordResult
  cache : Cache
  fs : Fs

/-- Writing the task's produced file, when it has one. -/
def updateFs (fs : Fs) (t : Task) (content : String) : Fs :=
  match producedFile t with
  | none => fs
  | some f => fun g => if g = f then content else fs g

/-- Modelled from the spec: the ExecutionCoordinator for one task
(sections 4.3 and 4.4).  A cache hit (cache enabled and the current key
present) short-circuits everything and marks the task Skipped(cached).  A
forbidden verify command is rejected by the Verifier before anything runs:
immediate Failed, no retry, no subprocess (section 7).  Otherwise the
attempt loop runs with `maxRetries` retries; the executor's write lands in
the produced file, and a success stores the key computed from the
post-write file system (cache-bypass mode skips the lookup but still
stores). -/
def coordinate (b : Behavior) (cfg : RunConfig) (c : Cache) (fs : Fs) (t : Task) : StepOut :=
  if cfg.cacheEnabled && decide (cacheKey fs t ∈ c) then
    ⟨⟨TaskStatus.skippedCached, 0, none, 0, 0, 0, false⟩, c, fs⟩
  else if isForbidden cfg.deny t.verify then
    ⟨⟨TaskStatus.failed, 0, some ErrorClass.forbiddenVerifyCommand, 0, 1, 0, false⟩, c, fs⟩
  else
    let r := runAttempts b t cfg.maxRetries 0
    let fs2 := if r.wroteFile then updateFs fs t (b.output t.id) else fs
    let c2 := if r.status = TaskStatus.succeeded then cacheKey fs2 t :: c else c
    ⟨r, c2, fs2⟩

/-- The per-run TaskExecution record of section 3: task id, final status,
retry count, classified error, and invocation counts. -/
structure TaskRecord where
  taskId : String
  status : TaskStatus
  retryCount : Nat
  errorClass : Option ErrorClass
  execCalls : Nat
  verifyCalls : Nat
  subprocCalls : Nat
deriving Repr, DecidableEq

/-- The record of a coordinated task. -/
def mkRecord (t : Task) (r : CoordResult) : TaskRecord :=
  ⟨t.id, r.status, r.retryCount, r.errorClass, r.execCalls, r.verifyCalls, r.subprocCalls⟩

/-- The record of a task that was never dispatched because a dependency
did not succeed: Skipped(blocked), with no invocations. -/
def blockedRecord (t : Task) : TaskRecord :=
  ⟨t.id, TaskStatus.skippedBlocked, 0, none, 0, 0, 0⟩

/-- Whether a record reports the task's work as successfully in place: it
succeeded, or it was skipped on a cache hit, which by the cache invariant
of section 4.3 replays a prior Succeeded outcome. -/
def reachedSuccessB (r : TaskRecord) : Bool :=
  decide (r.status = TaskStatus.succeeded) || decide (r.status = TaskStatus.skippedCached)

/-- Whether every direct dependency of a task has a record reporting
success. -/
def depsSatisfiedB (recs : List TaskRecord) (ts : List Task) (t : Task) : Bool :=
  (depIds ts t).all (fun d => recs.any (fun r => r.taskId == d && reachedSuccessB r))

/-- The records produced by one wave together with the updated cache and
file system. -/
structure WaveOut where
  records : List TaskRecord
  cache : Cache
  fs : Fs

/-- Modelled from the spec: the WaveRunner's processing of one wave
(section 4.5) in the default sequential mode (concurrency limit 1, tasks
in declared order).  A task whose direct dependencies did not all reach
success is not dispatched at all and is recorded Skipped(blocked);
otherwise it is handed to the coordinator. -/
def runTasksInWave (b : Behavior) (cfg : RunConfig) (ts : List Task) :
    List Task → List TaskRecord → Cache → Fs → WaveOut
  | [], _, c, fs => ⟨[], c, fs⟩
  | t :: rest, recs, c, fs =>
    if depsSatisfiedB recs ts t then
      let s := coordinate b cfg c fs t
      let tail := runTasksInWave b cfg ts rest (recs ++ [mkRecord t s.result]) s.cache s.fs
      ⟨mkRecord t s.result :: tail.records, tail.cache, tail.fs⟩
    else
      let tail := runTasksInWave b cfg ts rest (recs ++ [blockedRecord t]) c fs
      ⟨blockedRecord t :: tail.records, tail.cache, tail.fs⟩

/-- The structured run result of section 6: every task record, whether the
run aborted early, and the final cache and file system. -/
structure RunResult where
  records : List TaskRecord
  aborted : Bool
  cache : Cache
  fs : Fs

/-- Modelled from the spec: wave-by-wave execution (section 4.5): waves
run strictly in order; after a wave completes, a failure with
`continue_on_failure` false aborts the run before dispatching the next
wave (the result reports aborted). -/
def runWaves (b : Behavior) (cfg : RunConfig) (ts : List Task) :
    List (List Task) → List TaskRecord → Cache → Fs → RunResult
  | [], recs, c, fs => ⟨recs, false, c, fs⟩
  | w :: ws, recs, c, fs =>
    let wv := runTasksInWave b cfg ts w recs c fs
    if wv.records.any (fun r => decide (r.status = TaskStatus.failed)) && !cfg.continueOnFailure then
      ⟨recs ++ wv.records, true, wv.cache, wv.fs⟩
    else
      runWaves b cfg ts ws (recs ++ wv.records) wv.cache wv.fs

/-- Modelled from the spec: the start-run entry point (sections 2 and 6):
`Build`, then `Layer`, then wave-by-wave execution.  A graph-construction
failure aborts the whole run before anything is dispatched (section 7). -/
def runWorkflow (b : Behavior) (cfg : RunConfig) (fs : Fs) (c : Cache) (ts : List Task) :
    Except BuildError RunResult :=
  match Build ts with
  | Except.error e => Except.error e
  | Except.ok _ =>
    match Layer ts with
    | Except.error e => Except.error e
    | Except.ok waves => Except.ok (runWaves b cfg ts waves [] c fs)

/-- The record a task receives on a second, fully cached run. -/
def cachedOf (r : TaskRecord) : TaskRecord :=
  ⟨r.taskId, TaskStatus.skippedCached, 0, none, 0, 0, 0⟩

/-- The characters of an id before the first dot (character code 46). -/
def phaseChars : List Char → List Char
  | [] => []
  | c :: rest => if c.toNat = 46 then [] else c :: phaseChars rest

/-- The phase of a task id in dotted phase.index form: the part before the
first dot. -/
def phaseOf (t : Task) : String :=
  String.mk (phaseChars t.id.data)

/-- Modelled from the spec: the PLAN.md execution rule documented in the
plan template and CHANGELOG 0.2.1 for tasks without a `depends_on`
attribute: such a task depends on all prior tasks in its phase. -/
def withDefaultDeps (prior : List Task) (t : Task) : Task :=
  { t with dependsOn := some (idsOf (prior.filter (fun u => phaseOf u = phaseOf t))) }

/-- Modelled from the spec: applying the default-dependency rule to every
task of a plan in order; `prior` accumulates the tasks already seen. -/
def applyDefaultDepsAux (prior : List Task) : List Task → List Task
  | [] => []
  | t :: rest =>
    (if t.dependsOn.isNone then withDefaultDeps prior t else t)
      :: applyDefaultDepsAux (prior ++ [t]) rest

/-- Modelled from the spec: the plan with the default-dependency rule
applied to every task lacking `depends_on`. -/
def applyDefaultDeps (plan : List Task) : List Task :=
  applyDefaultDepsAux [] plan

/-- The task ids of a list of records, in order. -/
def recordIds (l : List TaskRecord) : List String :=
  l.map (fun r => r.taskId)

/-- Fixture: the producing task of the spec's Scenario A. -/
def exA : Task := ⟨"A", "", ["a.py"], "", "", "", none⟩

/-- Fixture: the consuming task of the spec's Scenario A. -/
def exB : Task := ⟨"B", "", ["b.py", "a.py"], "", "", "", none⟩

/-- Fixture: the Scenario A task set. -/
def exTs : List Task := [exA, exB]

/-- Fixture: first task of the spec's Scenario B (mutual file cycle). -/
def cycA : Task := ⟨"A", "", ["a.py", "b.py"], "", "", "", none⟩

/-- Fixture: second task of the spec's Scenario B. -/
def cycB : Task := ⟨"B", "", ["b.py", "a.py"], "", "", "", none⟩

/-- Fixture: the Scenario B task set. -/
def cycTs : List Task := [cycA, cycB]

/-- Fixture: a task producing f and explicitly depending on B. -/
def dupA : Task := ⟨"A", "", ["f"], "", "", "", some ["B"]⟩

/-- Fixture: a second producer of f, explicitly depending on A. -/
def dupB : Task := ⟨"B", "", ["f"], "", "", "", some ["A"]⟩

/-- Fixture: a task set with both a duplicate producer and a cycle. -/
def dupTs : List Task := [dupA, dupB]

/-- Fixture: a task producing f with no dependencies. -/
def noDepA : Task := ⟨"A", "", ["f"], "", "", "", none⟩

/-- Fixture: a second dependency-free producer of the same file f. -/
def noDepB : Task := ⟨"B", "", ["f"], "", "", "", none⟩

/-- Fixture: an acyclic task set with a duplicate produced file. -/
def noDepTs : List Task := [noDepA, noDepB]

/-- Fixture: a behavior whose Executor always generates and whose Verifier
always exits 1, so every attempt of every task fails. -/
def cexB : Behavior :=
  ⟨fun _ _ => ExecOutcome.ok, fun _ => "out", fun _ _ => VerifyRun.exit 1 "boom"⟩

/-- Fixture: a behavior whose Executor always generates and whose Verifier
always exits 0, so every task succeeds on its first attempt. -/
def cokB : Behavior :=
  ⟨fun _ _ => ExecOutcome.ok, fun _ => "out", fun _ _ => VerifyRun.exit 0 ""⟩

/-- Fixture: a single dependency-free task producing t.txt. -/
def cexT : Task := ⟨"T", "", ["t.txt"], "act", "check", "", none⟩

/-- Fixture: run configuration with caching enabled, no retries, stop on
failure, empty denylist. -/
def cexCfg : RunConfig := ⟨0, false, true, []⟩

/-- Fixture: the empty starting file system. -/
def cexFs : Fs := fun _ => ""

/-! ### Basic facts about ids, producers and cache keys -/

theorem hasId_iff {l : List Task} {i : String} : hasId l i = true ↔ i ∈ idsOf l := by
  simp only [hasId, List.any_eq_true, beq_iff_eq, idsOf, List.mem_map]

theorem mem_idsOf {l : List Task} {i : String} : i ∈ idsOf l ↔ ∃ t, t ∈ l ∧ t.id = i := by
  simp [idsOf, List.mem_map]

theorem cacheKey_congr {fs1 fs2 : Fs} {t : Task}
    (h : ∀ f, f ∈ inputFiles t → fs1 f = fs2 f) : cacheKey fs1 t = cacheKey fs2 t := by
  simp only [cacheKey, CacheKey.mk.injEq, true_and]
  exact List.map_congr_left h

theorem cacheKey_taskId (fs : Fs) (t : Task) : (cacheKey fs t).taskId = t.id := rfl

/-! ### Duplicate producers -/

theorem dupProducer_none_rest {t : Task} {rest : List Task}
    (h : dupProducer (t :: rest) = none) : dupProducer rest = none := by
  unfold dupProducer at h
  cases hf : producedFile t with
  | none => simpa [hf] using h
  | some f =>
    rw [hf] at h
    cases hfind : rest.find? (fun u => producedFile u == some f) with
    | none => simpa [hfind] using h
    | some u => simp [hfind] at h

theorem dupProducer_none_not_shared {t : Task} {rest : List Task} {f : String}
    (h : dupProducer (t :: rest) = none) (hf : producedFile t = some f) :
    ∀ u, u ∈ rest → producedFile u ≠ some f := by
  intro u hu he
  unfold dupProducer at h
  rw [hf] at h
  cases hfind : rest.find? (fun u => producedFile u == some f) with
  | some v => simp [hfind] at h
  | none =>
    have := List.find?_eq_none.mp hfind u hu
    simp [he] at this

theorem dupProducer_none_pairwise {ts : List Task}
    (h : dupProducer ts = none) :
    ts.Pairwise (fun a b => ∀ g, producedFile a = some g → producedFile b ≠ some g) := by
  induction ts with
  | nil => exact List.Pairwise.nil
  | cons t rest ih =>
    refine List.Pairwise.cons ?_ (ih (dupProducer_none_rest h))
    intro u hu g hg
    exact dupProducer_none_not_shared h hg u hu

theorem producedFile_symm :
    Symmetric (fun a b : Task => ∀ g, producedFile a = some g → producedFile b ≠ some g) := by
  intro a b hab g hbg hag
  exact hab g hag hbg

theorem producer_unique {ts : List Task} {u v : Task} {g : String}
    (h : dupProducer ts = none) (hu : u ∈ ts) (hv : v ∈ ts)
    (hgu : producedFile u = some g) (hgv : producedFile v = some g) : u = v := by
  by_contra hne
  exact List.Pairwise.forall producedFile_symm (dupProducer_none_pairwise h) hu hv hne
    g hgu hgv

theorem no_dup_of_sublist {ts : List Task} {t1 t2 : Task} {f : String}
    (h : dupProducer ts = none) (hsub : List.Sublist [t1, t2] ts)
    (h1 : producedFile t1 = some f) (h2 : producedFile t2 = some f) : False := by
  induction ts with
  | nil => cases hsub
  | cons a l ih =>
    cases hsub with
    | cons _ hsub2 => exact ih (dupProducer_none_rest h) hsub2
    | cons₂ _ hsub2 =>
      have ht2 : t2 ∈ l := hsub2.subset (List.mem_singleton_self t2)
      exact dupProducer_none_not_shared h h1 t2 ht2 h2

theorem producerOf_eq {ts : List Task} {u : Task} {g : String}
    (hdup : dupProducer ts = none) (hu : u ∈ ts) (hg : producedFile u = some g) :
    producerOf ts g = some u := by
  cases hfind : producerOf ts g with
  | none =>
    have := List.find?_eq_none.mp hfind u hu
    simp [hg] at this
  | some v =>
    have hvmem : v ∈ ts := List.mem_of_find?_eq_some hfind
    have hvp : producedFile v = some g := by
      have := List.find?_some hfind
      simpa using this
    rw [producer_unique hdup hvmem hu hvp hg]

/-! ### The retry loop -/

theorem runAttempts_all_fail {b : Behavior} {t : Task} (err : Nat → ErrorClass)
    (h : ∀ j, attemptOnce b t j = ⟨some (err j), 1, 1, 1, true⟩) :
    ∀ n k, runAttempts b t n k =
      ⟨TaskStatus.failed, k + n, some (err (k + n)), n + 1, n + 1, n + 1, true⟩ := by
  intro n
  induction n with
  | zero =>
    intro k
    unfold runAttempts
    rw [h k]
    simp
  | succ r ih =>
    intro k
    unfold runAttempts
    rw [h k]
    simp only [ih (k + 1)]
    have harith : k + 1 + r = k + (r + 1) := by omega
    simp [harith]
    try omega

theorem attemptOnce_none_wrote {b : Behavior} {t : Task} {k : Nat} {e v s : Nat} {w : Bool}
    (ha : attemptOnce b t k = ⟨none, e, v, s, w⟩) : w = true := by
  unfold attemptOnce at ha
  cases he : b.exec t.id k with
  | genError msg => rw [he] at ha; simp at ha
  | ok =>
    rw [he] at ha
    cases hv : b.verifyRun t.id k with
    | timedOut => rw [hv] at ha; simp at ha
    | exit code out =>
      rw [hv] at ha
      cases code with
      | zero =>
        simp only [AttemptInfo.mk.injEq] at ha
        obtain ⟨-, -, -, -, hw⟩ := ha
        exact hw.symm
      | succ m => simp at ha

theorem runAttempts_succeeded_wrote {b : Behavior} {t : Task} :
    ∀ n k, (runAttempts b t n k).status = TaskStatus.succeeded →
      (runAttempts b t n k).wroteFile = true := by
  intro n
  induction n with
  | zero =>
    intro k h
    unfold runAttempts at h ⊢
    cases ha : attemptOnce b t k with
    | mk failure execs verifies subprocs wrote =>
      rw [ha] at h
      cases failure with
      | none => exact attemptOnce_none_wrote ha
      | some e => simp at h
  | succ r ih =>
    intro k h
    unfold runAttempts at h ⊢
    cases ha : attemptOnce b t k with
    | mk failure execs verifies subprocs wrote =>
      rw [ha] at h
      cases failure with
      | none => exact attemptOnce_none_wrote ha
      | some e =>
        have h2 : (runAttempts b t r (k + 1)).status = TaskStatus.succeeded := h
        have hw := ih (k + 1) h2
        show (wrote || (runAttempts b t r (k + 1)).wroteFile) = true
        simp [hw]

theorem attemptOnce_verify_fail {b : Behavior} {t : Task} {k : Nat} {code : Nat} {out : String}
    (hex : b.exec t.id k = ExecOutcome.ok)
    (hv : b.verifyRun t.id k = VerifyRun.exit code out) (hc : code ≠ 0) :
    attemptOnce b t k = ⟨some (classify out), 1, 1, 1, true⟩ := by
  unfold attemptOnce
  rw [hex, hv]
  cases code with
  | zero => exact absurd rfl hc
  | succ m => rfl

/-! ### Claim C3: retry bound -/

/-- C3: a task that fails on every attempt (every executor invocation
succeeds, the verify command is not forbidden, and every verifier run
exits non-zero) has the executor and the verifier invoked exactly
`max_retries + 1` times, and is recorded with final status Failed, retry
count `max_retries`, and the classification of the last attempt's error
output. -/
theorem c3_retry_bound (b : Behavior) (cfg : RunConfig) (c : Cache) (fs : Fs) (t : Task)
    (codes : Nat → Nat) (outs : Nat → String)
    (hmiss : cacheKey fs t ∉ c)
    (hforb : isForbidden cfg.deny t.verify = false)
    (hex : ∀ j, b.exec t.id j = ExecOutcome.ok)
    (hver : ∀ j, b.verifyRun t.id j = VerifyRun.exit (codes j) (outs j))
    (hc : ∀ j, codes j ≠ 0) :
    (coordinate b cfg c fs t).result =
      ⟨TaskStatus.failed, cfg.maxRetries, some (classify (outs cfg.maxRetries)),
        cfg.maxRetries + 1, cfg.maxRetries + 1, cfg.maxRetries + 1, true⟩ ∧
    (coordinate b cfg c fs t).cache = c := by
  have hatt : ∀ j, attemptOnce b t j = ⟨some (classify (outs j)), 1, 1, 1, true⟩ :=
    fun j => attemptOnce_verify_fail (hex j) (hver j) (hc j)
  have hrun := runAttempts_all_fail (fun j => classify (outs j)) hatt cfg.maxRetries 0
  unfold coordinate
  rw [hforb]
  simp [hmiss, hrun]

/-- Witness for C3 at a concrete task, behaviour and retry budget 2. -/
theorem c3_retry_bound_witness :
    (coordinate ⟨fun _ _ => ExecOutcome.ok, fun _ => "", fun _ _ => VerifyRun.exit 1 "AssertionError"⟩
        ⟨2, false, true, []⟩ [] (fun _ => "") ⟨"T", "", ["t.py"], "", "pytest", "", none⟩).result =
      ⟨TaskStatus.failed, 2, some (classify "AssertionError"), 3, 3, 3, true⟩ ∧
    (coordinate ⟨fun _ _ => ExecOutcome.ok, fun _ => "", fun _ _ => VerifyRun.exit 1 "AssertionError"⟩
        ⟨2, false, true, []⟩ [] (fun _ => "") ⟨"T", "", ["t.py"], "", "pytest", "", none⟩).cache = [] :=
  c3_retry_bound _ _ _ _ _ (fun _ => 1) (fun _ => "AssertionError")
    (by simp) (by decide) (fun _ => rfl) (fun _ => rfl) (fun _ => Nat.one_ne_zero)

/-! ### Claim C8: forbidden verify commands -/

/-- C8: a verify command matching the denylist is rejected by the Verifier
before anything runs: no subprocess is spawned, no executor invocation
happens, and the task transitions immediately to Failed with the
`ForbiddenVerifyCommandError` classification and zero retries. -/
theorem c8_forbidden_verify (b : Behavior) (cfg : RunConfig) (c : Cache) (fs : Fs) (t : Task)
    (hforb : isForbidden cfg.deny t.verify = true)
    (hmiss : cacheKey fs t ∉ c) :
    coordinate b cfg c fs t =
      ⟨⟨TaskStatus.failed, 0, some ErrorClass.forbiddenVerifyCommand, 0, 1, 0, false⟩, c, fs⟩ := by
  unfold coordinate
  simp [hmiss, hforb]

/-- Witness for C8: a task whose verify command is rm -rf under the
denylist containing rm. -/
theorem c8_forbidden_verify_witness :
    coordinate ⟨fun _ _ => ExecOutcome.ok, fun _ => "", fun _ _ => VerifyRun.exit 0 ""⟩
        ⟨2, false, true, ["rm"]⟩ [] (fun _ => "") ⟨"T", "", ["t.py"], "", "rm -rf x", "", none⟩ =
      ⟨⟨TaskStatus.failed, 0, some ErrorClass.forbiddenVerifyCommand, 0, 1, 0, false⟩,
        [], fun _ => ""⟩ :=
  c8_forbidden_verify _ _ _ _ _ (by decide) (by simp)

/-! ### Claim C9: cache-key noninterference -/

/-- C9: two file systems that differ only in the bytes of one file give
identical cache keys to every task that does not declare that file among
its input files. -/
theorem c9_cache_noninterference (fs1 fs2 : Fs) (f0 : String)
    (hdiff : ∀ g, g ≠ f0 → fs1 g = fs2 g) (t : Task) (hf : f0 ∉ inputFiles t) :
    cacheKey fs1 t = cacheKey fs2 t := by
  apply cacheKey_congr
  intro f hfm
  apply hdiff
  intro he
  exact hf (he ▸ hfm)

/-- Witness for C9: changing data.txt leaves the key of a task reading
only in.py unchanged. -/
theorem c9_cache_noninterference_witness :
    cacheKey (fun _ => "x") ⟨"T", "", ["out.py", "in.py"], "", "", "", none⟩ =
      cacheKey (fun g => if g = "data.txt" then "y" else "x")
        ⟨"T", "", ["out.py", "in.py"], "", "", "", none⟩ :=
  c9_cache_noninterference _ _ "data.txt"
    (fun g hg => by simp [hg]) _ (by decide)

/-! ### Claim C7: duplicate producers -/

/-- C7: whenever two distinct tasks of the set list the same file as their
first (produced) file, `Build` fails with a `DuplicateProducerError`,
whatever the dependency edges between them are. -/
theorem c7_duplicate_producer (ts : List Task) (t1 t2 : Task) (f : String)
    (hsub : List.Sublist [t1, t2] ts)
    (h1 : producedFile t1 = some f) (h2 : producedFile t2 = some f) :
    ∃ g i j, Build ts = Except.error (BuildError.duplicateProducer g i j) := by
  cases e : dupProducer ts with
  | none => exact (no_dup_of_sublist e hsub h1 h2).elim
  | some p =>
    obtain ⟨g, i, j⟩ := p
    refine ⟨g, i, j, ?_⟩
    unfold Build
    rw [e]

/-- Witness for C7: two tasks both producing f, with a dependency edge
from the second to the first. -/
theorem c7_duplicate_producer_witness :
    ∃ g i j,
      Build [⟨"A", "", ["f"], "", "", "", none⟩, ⟨"B", "", ["f", "g"], "", "", "", some ["A"]⟩] =
        Except.error (BuildError.duplicateProducer g i j) :=
  c7_duplicate_producer _ _ _ "f" (List.Sublist.refl _) rfl rfl

/-! ### Claim C6: dependency inference -/

/-- C6: with well-formed tasks (distinct ids, no duplicate producers) an
inferred edge from U to T exists exactly when U is a task other than T
whose first listed (produced) file occurs among the input files
`T.files[1:]`. -/
theorem c6_inferred_edges (ts : List Task) (t u : Task)
    (hdup : dupProducer ts = none) (hN : (idsOf ts).Nodup) (hu : u ∈ ts) :
    u.id ∈ inferredDeps ts t ↔
      (u.id ≠ t.id ∧ ∃ f, f ∈ inputFiles t ∧ producedFile u = some f) := by
  constructor
  · intro hmem
    rw [inferredDeps, List.mem_filterMap] at hmem
    obtain ⟨f, hf, he⟩ := hmem
    cases hp : producerOf ts f with
    | none => rw [hp] at he; simp at he
    | some w =>
      rw [hp] at he
      have he2 : (if (w.id == t.id) = true then none else some w.id) = some u.id := he
      cases hwt : (w.id == t.id) with
      | true => rw [hwt] at he2; simp at he2
      | false =>
        rw [hwt] at he2
        simp only [Bool.false_eq_true, if_false, Option.some.injEq] at he2
        have hwmem : w ∈ ts := List.mem_of_find?_eq_some hp
        have hwp : producedFile w = some f := by simpa using List.find?_some hp
        have hwu : w = u := List.inj_on_of_nodup_map hN hwmem hu he2
        subst hwu
        refine ⟨?_, f, hf, hwp⟩
        rw [← he2]
        simpa using hwt
  · rintro ⟨hne, f, hf, hpf⟩
    rw [inferredDeps, List.mem_filterMap]
    refine ⟨f, hf, ?_⟩
    rw [producerOf_eq hdup hu hpf]
    simp [hne]

/-- Witness for C6: task B lists a.py after its produced file, task A
produces a.py, so the edge A to B is inferred; both directions of the
characterisation are exercised at this instance. -/
theorem c6_inferred_edges_witness :
    exA.id ∈ inferredDeps exTs exB ↔
      (exA.id ≠ exB.id ∧ ∃ f, f ∈ inputFiles exB ∧ producedFile exA = some f) :=
  c6_inferred_edges exTs exB exA (by decide) (by decide) (by decide)

/-! ### Layering: readiness, progress and termination -/

theorem hasId_eq_false {l : List Task} {i : String} : hasId l i = false ↔ i ∉ idsOf l := by
  constructor
  · intro h hm
    rw [← hasId_iff] at hm
    rw [h] at hm
    cases hm
  · intro h
    cases hb : hasId l i with
    | false => rfl
    | true => exact absurd (hasId_iff.mp hb) h

theorem isReadyB_iff {ts rem : List Task} {t : Task} :
    isReadyB ts rem t = true ↔ ∀ d, d ∈ depIds ts t → d ∉ idsOf rem := by
  simp only [isReadyB, List.all_eq_true, Bool.not_eq_true']
  constructor
  · intro h d hd
    exact hasId_eq_false.mp (h d hd)
  · intro h d hd
    exact hasId_eq_false.mpr (h d hd)

theorem depIds_closed {ts : List Task} {t : Task} {d : String}
    (hd : d ∈ depIds ts t) : d ∈ idsOf ts := by
  rw [depIds, List.mem_append] at hd
  cases hd with
  | inl h => exact hasId_iff.mp (List.mem_filter.mp h).2
  | inr h =>
    rw [inferredDeps, List.mem_filterMap] at h
    obtain ⟨f, _, he⟩ := h
    cases hp : producerOf ts f with
    | none => rw [hp] at he; simp at he
    | some w =>
      rw [hp] at he
      have he2 : (if (w.id == t.id) = true then none else some w.id) = some d := he
      cases hwt : (w.id == t.id) with
      | true => rw [hwt] at he2; simp at he2
      | false =>
        rw [hwt] at he2
        simp only [Bool.false_eq_true, if_false, Option.some.injEq] at he2
        rw [← he2]
        exact mem_idsOf.mpr ⟨w, List.mem_of_find?_eq_some hp, rfl⟩

theorem exists_min_rank (f : String → Nat) :
    ∀ l : List Task, l ≠ [] → ∃ t, t ∈ l ∧ ∀ u, u ∈ l → f t.id ≤ f u.id := by
  intro l
  induction l with
  | nil => intro h; exact absurd rfl h
  | cons a m ih =>
    intro _
    cases m with
    | nil =>
      refine ⟨a, List.mem_singleton_self a, ?_⟩
      intro u hu
      rw [List.mem_singleton] at hu
      rw [hu]
    | cons b m2 =>
      obtain ⟨t, ht, hmin⟩ := ih (by simp)
      by_cases hab : f a.id ≤ f t.id
      · refine ⟨a, List.mem_cons_self a (b :: m2), ?_⟩
        intro u hu
        rcases List.mem_cons.mp hu with h | h
        · rw [h]
        · exact le_trans hab (hmin u h)
      · refine ⟨t, List.mem_cons_of_mem a ht, ?_⟩
        intro u hu
        rcases List.mem_cons.mp hu with h | h
        · rw [h]; exact le_of_not_le hab
        · exact hmin u h

theorem layer_progress {ts rem : List Task} (hA : Acyclic ts) (hne : rem ≠ [])
    (hsub : ∀ t, t ∈ rem → t ∈ ts) : ∃ t, t ∈ rem ∧ isReadyB ts rem t = true := by
  obtain ⟨rank, hrank⟩ := hA
  obtain ⟨t, ht, hmin⟩ := exists_min_rank rank rem hne
  refine ⟨t, ht, ?_⟩
  rw [isReadyB_iff]
  intro d hd hdm
  obtain ⟨u, hu, hud⟩ := mem_idsOf.mp hdm
  have hedge : edgeB ts t.id d = true := by
    rw [edgeB, List.any_eq_true]
    refine ⟨t, hsub t ht, ?_⟩
    simp only [beq_self_eq_true, Bool.true_and]
    exact List.elem_iff.mpr hd
  have hlt := hrank _ _ hedge
  have hle := hmin u hu
  rw [hud] at hle
  omega

theorem length_filter_not_add {α : Type} (p : α → Bool) (l : List α) :
    (l.filter p).length + (l.filter (fun a => !(p a))).length = l.length := by
  induction l with
  | nil => rfl
  | cons a l ih =>
    cases h : p a <;> simp [List.filter_cons, h, ← ih] <;> omega

theorem layer_ok {ts : List Task} (hA : Acyclic ts) :
    ∀ fuel rem, (∀ t, t ∈ rem → t ∈ ts) → rem.length ≤ fuel →
      ∃ ws, layerAux ts fuel rem = Except.ok ws := by
  intro fuel
  induction fuel with
  | zero =>
    intro rem hsub hlen
    have hnil : rem = [] := List.eq_nil_of_length_eq_zero (Nat.le_zero.mp hlen)
    subst hnil
    exact ⟨[], rfl⟩
  | succ n ih =>
    intro rem hsub hlen
    cases rem with
    | nil => exact ⟨[], rfl⟩
    | cons a l =>
      obtain ⟨t, ht, hready⟩ := layer_progress hA (by simp) hsub
      have htf : t ∈ (a :: l).filter (fun x => isReadyB ts (a :: l) x) :=
        List.mem_filter.mpr ⟨ht, hready⟩
      have hne2 : ((a :: l).filter (fun x => isReadyB ts (a :: l) x)).isEmpty = false := by
        cases he : ((a :: l).filter (fun x => isReadyB ts (a :: l) x)).isEmpty with
        | false => rfl
        | true =>
          rw [List.isEmpty_iff] at he
          rw [he] at htf
          cases htf
      have hpos : 0 < ((a :: l).filter (fun x => isReadyB ts (a :: l) x)).length :=
        List.length_pos.mpr (List.ne_nil_of_mem htf)
      have hsum := length_filter_not_add (fun x => isReadyB ts (a :: l) x) (a :: l)
      have hlen2 : ((a :: l).filter (fun x => !(isReadyB ts (a :: l) x))).length ≤ n := by
        have hlc : (a :: l).length ≤ n + 1 := hlen
        omega
      obtain ⟨ws, hws⟩ :=
        ih ((a :: l).filter (fun x => !(isReadyB ts (a :: l) x)))
          (fun u hu => hsub u (List.mem_of_mem_filter hu)) hlen2
      refine ⟨(a :: l).filter (fun x => isReadyB ts (a :: l) x) :: ws, ?_⟩
      simp only [layerAux]
      rw [hne2]
      simp only [Bool.false_eq_true, if_false, hws]

/-! ### Layering: soundness of the wave assignment -/

theorem waveNumber_ge_one : ∀ (ws : List (List Task)) (i : String) (k : Nat),
    waveNumber ws i = some k → 1 ≤ k := by
  intro ws i k h
  cases ws with
  | nil => cases h
  | cons w rest =>
    rw [waveNumber] at h
    cases hw : hasId w i with
    | true => rw [hw] at h; simp at h; omega
    | false =>
      rw [hw] at h
      simp only [Bool.false_eq_true, if_false, Option.map_eq_some'] at h
      obtain ⟨m, _, hm⟩ := h
      omega

theorem layerAux_cons_eq {ts : List Task} {n : Nat} {a : Task} {l : List Task} :
    layerAux ts (n + 1) (a :: l) =
      (if ((a :: l).filter (fun t => isReadyB ts (a :: l) t)).isEmpty then
        Except.error (BuildError.circularDependency (idsOf (a :: l)))
      else
        match layerAux ts n ((a :: l).filter (fun t => !(isReadyB ts (a :: l) t))) with
        | Except.ok ws => Except.ok ((a :: l).filter (fun t => isReadyB ts (a :: l) t) :: ws)
        | Except.error e => Except.error e) := rfl

theorem idsOf_sublist {p : Task → Bool} {l : List Task} :
    List.Sublist (idsOf (l.filter p)) (idsOf l) := by
  unfold idsOf
  exact (List.filter_sublist l).map (fun t => t.id)

theorem idsOf_filter_nodup {p : Task → Bool} {l : List Task} (h : (idsOf l).Nodup) :
    (idsOf (l.filter p)).Nodup :=
  idsOf_sublist.nodup h

theorem layerAux_sound {ts : List Task} :
    ∀ fuel rem ws, (idsOf rem).Nodup → layerAux ts fuel rem = Except.ok ws →
      (∀ i k, waveNumber ws i = some k → i ∈ idsOf rem) ∧
      (∀ t, t ∈ rem → ∃ k, waveNumber ws t.id = some k) ∧
      (∀ t k, t ∈ rem → waveNumber ws t.id = some k →
        ((∀ d, d ∈ depIds ts t → d ∈ idsOf rem → ∃ j, waveNumber ws d = some j ∧ j < k) ∧
         (k = 1 → ∀ d, d ∈ depIds ts t → d ∉ idsOf rem) ∧
         (2 ≤ k → ∃ d, d ∈ depIds ts t ∧ waveNumber ws d = some (k - 1)))) := by
  intro fuel
  induction fuel with
  | zero =>
    intro rem ws hN h
    cases rem with
    | cons a l => cases h
    | nil =>
      have hws : ws = [] := by
        have : Except.ok (ε := BuildError) ([] : List (List Task)) = Except.ok ws := h
        exact (Except.ok.injEq _ _).mp this.symm ▸ rfl
      subst hws
      refine ⟨?_, ?_, ?_⟩
      · intro i k hw; cases hw
      · intro t ht; cases ht
      · intro t k ht _; cases ht
  | succ n ih =>
    intro rem ws hN h
    cases rem with
    | nil =>
      have hws : ws = [] := by
        have : Except.ok (ε := BuildError) ([] : List (List Task)) = Except.ok ws := h
        exact (Except.ok.injEq _ _).mp this.symm ▸ rfl
      subst hws
      refine ⟨?_, ?_, ?_⟩
      · intro i k hw; cases hw
      · intro t ht; cases ht
      · intro t k ht _; cases ht
    | cons a l =>
      rw [layerAux_cons_eq] at h
      cases hemp : ((a :: l).filter (fun t => isReadyB ts (a :: l) t)).isEmpty with
      | true => rw [hemp] at h; simp at h
      | false =>
        rw [hemp] at h
        simp only [Bool.false_eq_true, if_false] at h
        cases hrec : layerAux ts n ((a :: l).filter (fun t => !(isReadyB ts (a :: l) t))) with
        | error e => rw [hrec] at h; cases h
        | ok ws2 =>
          rw [hrec] at h
          have hws : ws = (a :: l).filter (fun t => isReadyB ts (a :: l) t) :: ws2 := by
            cases h
            rfl
          subst hws
          have hNrest : (idsOf ((a :: l).filter (fun t => !(isReadyB ts (a :: l) t)))).Nodup :=
            idsOf_filter_nodup hN
          obtain ⟨ihDom, ihTot, ihMain⟩ := ih _ ws2 hNrest hrec
          have hmem_split : ∀ x : Task, x ∈ a :: l ↔
              x ∈ (a :: l).filter (fun t => isReadyB ts (a :: l) t) ∨
              x ∈ (a :: l).filter (fun t => !(isReadyB ts (a :: l) t)) := by
            intro x
            constructor
            · intro hx
              cases hp : isReadyB ts (a :: l) x with
              | true => exact Or.inl (List.mem_filter.mpr ⟨hx, hp⟩)
              | false => exact Or.inr (List.mem_filter.mpr ⟨hx, by simp [hp]⟩)
            · rintro (hx | hx) <;> exact List.mem_of_mem_filter hx
          have hinj : ∀ x y : Task, x ∈ a :: l → y ∈ a :: l → x.id = y.id → x = y :=
            fun x y hx hy he => List.inj_on_of_nodup_map hN hx hy he
          have hcross : ∀ x, x ∈ (a :: l).filter (fun t => !(isReadyB ts (a :: l) t)) →
              hasId ((a :: l).filter (fun t => isReadyB ts (a :: l) t)) x.id = false := by
            intro x hx
            rw [hasId_eq_false]
            intro hm
            obtain ⟨y, hy, hyid⟩ := mem_idsOf.mp hm
            obtain ⟨hx1, hx2⟩ := List.mem_filter.mp hx
            obtain ⟨hy1, hy2⟩ := List.mem_filter.mp hy
            have hxy := hinj y x hy1 hx1 hyid
            subst hxy
            rw [hy2] at hx2
            simp at hx2
          have hwave_ready : ∀ i, hasId ((a :: l).filter (fun t => isReadyB ts (a :: l) t)) i = true →
              waveNumber ((a :: l).filter (fun t => isReadyB ts (a :: l) t) :: ws2) i = some 1 := by
            intro i hi
            rw [waveNumber, hi]
            rfl
          have hwave_rest : ∀ i, hasId ((a :: l).filter (fun t => isReadyB ts (a :: l) t)) i = false →
              waveNumber ((a :: l).filter (fun t => isReadyB ts (a :: l) t) :: ws2) i =
                (waveNumber ws2 i).map (fun k => k + 1) := by
            intro i hi
            rw [waveNumber, hi]
            rfl
          have hsubR : ∀ i, i ∈ idsOf ((a :: l).filter (fun t => isReadyB ts (a :: l) t)) →
              i ∈ idsOf (a :: l) :=
            fun i hi => idsOf_sublist.subset hi
          have hsubN : ∀ i, i ∈ idsOf ((a :: l).filter (fun t => !(isReadyB ts (a :: l) t))) →
              i ∈ idsOf (a :: l) :=
            fun i hi => idsOf_sublist.subset hi
          refine ⟨?_, ?_, ?_⟩
          · intro i k hw
            cases hr : hasId ((a :: l).filter (fun t => isReadyB ts (a :: l) t)) i with
            | true => exact hsubR i (hasId_iff.mp hr)
            | false =>
              rw [hwave_rest i hr, Option.map_eq_some'] at hw
              obtain ⟨m, hm, _⟩ := hw
              exact hsubN i (ihDom i m hm)
          · intro t ht
            rcases (hmem_split t).mp ht with hr | hr
            · exact ⟨1, hwave_ready t.id (hasId_iff.mpr (mem_idsOf.mpr ⟨t, hr, rfl⟩))⟩
            · obtain ⟨m, hm⟩ := ihTot t hr
              refine ⟨m + 1, ?_⟩
              rw [hwave_rest t.id (hcross t hr), hm]
              rfl
          · intro t k ht hw
            rcases (hmem_split t).mp ht with hr | hr
            · -- t is in the ready wave: wave number 1, no dependency still present
              have hread : isReadyB ts (a :: l) t = true := (List.mem_filter.mp hr).2
              have hdeps := isReadyB_iff.mp hread
              have hk1 : k = 1 := by
                rw [hwave_ready t.id (hasId_iff.mpr (mem_idsOf.mpr ⟨t, hr, rfl⟩))] at hw
                cases hw
                rfl
              subst hk1
              refine ⟨?_, ?_, ?_⟩
              · intro d hd hdm
                exact absurd hdm (hdeps d hd)
              · intro _ d hd
                exact hdeps d hd
              · intro h2
                omega
            · -- t is in a later wave
              have hpt : isReadyB ts (a :: l) t = false := by
                have := (List.mem_filter.mp hr).2
                simpa using this
              rw [hwave_rest t.id (hcross t hr), Option.map_eq_some'] at hw
              obtain ⟨m, hm, hk⟩ := hw
              obtain ⟨ihFst, ihSnd, ihThd⟩ := ihMain t m hr hm
              have hm1 : 1 ≤ m := waveNumber_ge_one ws2 t.id m hm
              refine ⟨?_, ?_, ?_⟩
              · intro d hd hdm
                obtain ⟨u, hu, hud⟩ := mem_idsOf.mp hdm
                rcases (hmem_split u).mp hu with hur | hur
                · refine ⟨1, ?_, ?_⟩
                  · exact hwave_ready d (hud ▸ hasId_iff.mpr (mem_idsOf.mpr ⟨u, hur, rfl⟩))
                  · omega
                · have hdn : d ∈ idsOf ((a :: l).filter (fun t => !(isReadyB ts (a :: l) t))) :=
                    hud ▸ mem_idsOf.mpr ⟨u, hur, rfl⟩
                  obtain ⟨j, hj, hjm⟩ := ihFst d hd hdn
                  refine ⟨j + 1, ?_, ?_⟩
                  · rw [hwave_rest d (hud ▸ hcross u hur), hj]
                    rfl
                  · omega
              · intro hk1
                omega
              · intro _
                rcases Nat.lt_or_ge m 2 with hm2 | hm2
                · -- m = 1: some dependency of t was assigned in the ready wave
                  have hmeq : m = 1 := by omega
                  subst hmeq
                  have hnot : ¬ ∀ d, d ∈ depIds ts t → d ∉ idsOf (a :: l) := by
                    intro hall
                    rw [← isReadyB_iff] at hall
                    rw [hall] at hpt
                    cases hpt
                  push_neg at hnot
                  obtain ⟨d, hd, hdm⟩ := hnot
                  obtain ⟨u, hu, hud⟩ := mem_idsOf.mp hdm
                  rcases (hmem_split u).mp hu with hur | hur
                  · refine ⟨d, hd, ?_⟩
                    have : k - 1 = 1 := by omega
                    rw [this]
                    exact hwave_ready d (hud ▸ hasId_iff.mpr (mem_idsOf.mpr ⟨u, hur, rfl⟩))
                  · have hdn : d ∈ idsOf ((a :: l).filter (fun t => !(isReadyB ts (a :: l) t))) :=
                      hud ▸ mem_idsOf.mpr ⟨u, hur, rfl⟩
                    exact absurd hdn (ihSnd rfl d hd)
                · -- m at least 2: lift the dependency from the inner waves
                  obtain ⟨d, hd, hj⟩ := ihThd hm2
                  have hdn : d ∈ idsOf ((a :: l).filter (fun t => !(isReadyB ts (a :: l) t))) :=
                    ihDom d (m - 1) hj
                  obtain ⟨u, hu, hud⟩ := mem_idsOf.mp hdn
                  refine ⟨d, hd, ?_⟩
                  rw [hwave_rest d (hud ▸ hcross u hu), hj]
                  have : m - 1 + 1 = k - 1 := by omega
                  simp [this]

/-! ### Claim C1: wave assignment -/

theorem natMax_cons (a : Nat) (l : List Nat) : natMax (a :: l) = max a (natMax l) := rfl

theorem le_natMax_of_mem {l : List Nat} {a : Nat} (h : a ∈ l) : a ≤ natMax l := by
  induction l with
  | nil => cases h
  | cons x m ih =>
    rw [natMax_cons]
    rcases List.mem_cons.mp h with hx | hm
    · rw [hx]; exact le_max_left x (natMax m)
    · exact le_trans (ih hm) (le_max_right x (natMax m))

theorem natMax_le {l : List Nat} {m : Nat} (h : ∀ x, x ∈ l → x ≤ m) : natMax l ≤ m := by
  induction l with
  | nil => exact Nat.zero_le m
  | cons x t ih =>
    rw [natMax_cons]
    exact max_le (h x (List.mem_cons_self x t)) (ih (fun y hy => h y (List.mem_cons_of_mem x hy)))

theorem acyclic_of_no_deps {ts : List Task} (h : ∀ t, t ∈ ts → depIds ts t = []) :
    Acyclic ts := by
  refine ⟨fun _ => 0, ?_⟩
  intro a b he
  rw [edgeB, List.any_eq_true] at he
  obtain ⟨t, ht, hb⟩ := he
  rw [h t ht] at hb
  simp at hb

/-- C1 (amended): for every acyclic task set with distinct task ids and
pairwise-distinct produced files, `Build` followed by `Layer` succeeds and
every task is assigned the wave number one plus the maximum wave number of
its direct dependencies (wave 1 when it has none). -/
theorem c1_wave_assignment (ts : List Task)
    (hA : Acyclic ts) (hN : (idsOf ts).Nodup) (hdup : dupProducer ts = none) :
    ∃ waves, Build ts = Except.ok ts ∧ Layer ts = Except.ok waves ∧
      ∀ t, t ∈ ts → waveNumber waves t.id =
        some (1 + natMax ((depIds ts t).map (fun d => (waveNumber waves d).getD 0))) := by
  obtain ⟨waves, hws⟩ := layer_ok hA ts.length ts (fun t ht => ht) (le_refl _)
  have hlayer : Layer ts = Except.ok waves := hws
  refine ⟨waves, ?_, hlayer, ?_⟩
  · unfold Build
    rw [hdup, hlayer]
  · intro t ht
    obtain ⟨hDom, hTot, hMain⟩ := layerAux_sound ts.length ts waves hN hws
    obtain ⟨k, hk⟩ := hTot t ht
    obtain ⟨hFst, hSnd, hThd⟩ := hMain t k ht hk
    rw [hk]
    congr 1
    rcases Nat.lt_or_ge k 2 with hk2 | hk2
    · have hk1 : k = 1 := by
        have := waveNumber_ge_one waves t.id k hk
        omega
      subst hk1
      have hdeps : depIds ts t = [] := by
        cases hd : depIds ts t with
        | nil => rfl
        | cons d ds =>
          have hdm : d ∈ depIds ts t := by rw [hd]; exact List.mem_cons_self d ds
          exact absurd (depIds_closed hdm) (hSnd rfl d hdm)
      rw [hdeps]
      rfl
    · obtain ⟨d0, hd0, hw0⟩ := hThd hk2
      have hub : ∀ x, x ∈ (depIds ts t).map (fun d => (waveNumber waves d).getD 0) →
          x ≤ k - 1 := by
        intro x hx
        rw [List.mem_map] at hx
        obtain ⟨d, hd, hdx⟩ := hx
        obtain ⟨j, hj, hjk⟩ := hFst d hd (depIds_closed hd)
        rw [← hdx, hj]
        simp only [Option.getD_some]
        omega
      have hat : (k - 1) ∈ (depIds ts t).map (fun d => (waveNumber waves d).getD 0) := by
        rw [List.mem_map]
        refine ⟨d0, hd0, ?_⟩
        rw [hw0]
        rfl
      have h1 := le_natMax_of_mem hat
      have h2 := natMax_le hub
      omega

/-- Counterexample to C1 as frozen: an acyclic task set on which `Build`
fails, because two tasks produce the same file and the duplicate-producer
check precedes everything else. -/
theorem c1_counterexample :
    Acyclic noDepTs ∧ ∀ g, Build noDepTs ≠ Except.ok g := by
  constructor
  · exact acyclic_of_no_deps (by decide)
  · intro g h
    have hb : Build noDepTs = Except.error (BuildError.duplicateProducer "f" "A" "B") := rfl
    rw [hb] at h
    exact Except.noConfusion h

/-- Witness for C1 at the spec's Scenario A task set. -/
theorem c1_wave_assignment_witness :
    ∃ waves, Build exTs = Except.ok exTs ∧ Layer exTs = Except.ok waves ∧
      ∀ t, t ∈ exTs → waveNumber waves t.id =
        some (1 + natMax ((depIds exTs t).map (fun d => (waveNumber waves d).getD 0))) := by
  refine c1_wave_assignment exTs ⟨fun s => if s = "A" then 0 else 1, ?_⟩ (by decide) (by decide)
  intro a b h
  rw [edgeB, List.any_eq_true] at h
  obtain ⟨t, ht, hb⟩ := h
  have ht2 : t = exA ∨ t = exB := by
    rcases List.mem_cons.mp ht with h1 | h1
    · exact Or.inl h1
    · exact Or.inr (List.mem_singleton.mp h1)
  rcases ht2 with h1 | h1
  · subst h1
    rw [show depIds exTs exA = [] from rfl] at hb
    simp at hb
  · subst h1
    rw [show depIds exTs exB = ["A"] from rfl] at hb
    rw [Bool.and_eq_true] at hb
    have ha : a = "B" := (beq_iff_eq.mp hb.1).symm
    have hbb : b = "A" := by
      have := List.elem_iff.mp hb.2
      simpa using this
    rw [ha, hbb]
    decide

/-! ### Claim C2: cycles are rejected before anything runs -/

theorem edgeB_elim {ts : List Task} {x d : String} (h : edgeB ts x d = true) :
    ∃ u, u ∈ ts ∧ u.id = x ∧ d ∈ depIds ts u := by
  rw [edgeB, List.any_eq_true] at h
  obtain ⟨u, hu, hb⟩ := h
  rw [Bool.and_eq_true] at hb
  exact ⟨u, hu, beq_iff_eq.mp hb.1, List.elem_iff.mp hb.2⟩

theorem depChainB_succ {ts : List Task} :
    ∀ l, depChainB ts l = true → ∀ x, x ∈ l.dropLast → ∃ d, d ∈ l ∧ edgeB ts x d = true := by
  intro l
  induction l with
  | nil => intro _ x hx; cases hx
  | cons a m ih =>
    intro hc x hx
    cases m with
    | nil => simp at hx
    | cons b m2 =>
      have hc2 : (edgeB ts a b && depChainB ts (b :: m2)) = true := hc
      rw [Bool.and_eq_true] at hc2
      obtain ⟨he, hch⟩ := hc2
      have hdl : (a :: b :: m2).dropLast = a :: (b :: m2).dropLast := rfl
      rw [hdl] at hx
      rcases List.mem_cons.mp hx with hxa | hx2
      · subst hxa
        exact ⟨b, List.mem_cons_of_mem x (List.mem_cons_self b m2), he⟩
      · obtain ⟨d, hd, hde⟩ := ih hch x hx2
        exact ⟨d, List.mem_cons_of_mem a hd, hde⟩

theorem getLastD_irrel {α : Type} : ∀ (m : List α) (y : α) (d e : α),
    (y :: m).getLastD d = (y :: m).getLastD e := by
  intro m y d e
  cases m with
  | nil => rfl
  | cons z m2 =>
    rw [List.getLastD_cons d y (z :: m2), List.getLastD_cons e y (z :: m2)]

theorem mem_dropLast_or_getLastD {α : Type} (d : α) :
    ∀ (l : List α) (a : α), a ∈ l → a ∈ l.dropLast ∨ a = l.getLastD d := by
  intro l
  induction l with
  | nil => intro a ha; cases ha
  | cons x m ih =>
    intro a ha
    cases m with
    | nil =>
      right
      rw [List.mem_singleton.mp ha]
      rfl
    | cons y m2 =>
      rcases List.mem_cons.mp ha with hax | ham
      · left
        rw [show (x :: y :: m2).dropLast = x :: (y :: m2).dropLast from rfl]
        rw [hax]
        exact List.mem_cons_self x ((y :: m2).dropLast)
      · rcases ih a ham with h | h
        · left
          rw [show (x :: y :: m2).dropLast = x :: (y :: m2).dropLast from rfl]
          exact List.mem_cons_of_mem x h
        · right
          rw [h, List.getLastD_cons d x (y :: m2)]
          exact getLastD_irrel m2 y d x

theorem depCycleB_mem_edge {ts : List Task} {l : List String}
    (h : depCycleB ts l = true) : ∀ a, a ∈ l → ∃ d, d ∈ l ∧ edgeB ts a d = true := by
  rw [depCycleB, Bool.and_eq_true, Bool.and_eq_true] at h
  obtain ⟨⟨hlen, hch⟩, hhl⟩ := h
  rw [decide_eq_true_eq] at hlen
  intro a ha
  rcases mem_dropLast_or_getLastD "" l a ha with hd | he
  · exact depChainB_succ l hch a hd
  · cases l with
    | nil => simp at hlen
    | cons x m =>
      cases m with
      | nil => simp at hlen
      | cons y m2 =>
        have hhead : (x :: y :: m2).headD "" = (x :: y :: m2).getLastD "" := beq_iff_eq.mp hhl
        have hax : a = x := by
          rw [he, ← hhead]
          rfl
        have hxdl : x ∈ (x :: y :: m2).dropLast := by
          rw [show (x :: y :: m2).dropLast = x :: (y :: m2).dropLast from rfl]
          exact List.mem_cons_self x ((y :: m2).dropLast)
        obtain ⟨d2, hd2, he2⟩ := depChainB_succ (x :: y :: m2) hch x hxdl
        rw [hax]
        exact ⟨d2, hd2, he2⟩

theorem layer_trapped {ts : List Task} (C : List Task)
    (hCne : C ≠ []) (htrap : ∀ t, t ∈ C → ∃ d, d ∈ depIds ts t ∧ d ∈ idsOf C) :
    ∀ fuel rem, (∀ t, t ∈ C → t ∈ rem) →
      ∃ c, layerAux ts fuel rem = Except.error (BuildError.circularDependency c) := by
  intro fuel
  induction fuel with
  | zero =>
    intro rem hsub
    cases rem with
    | nil =>
      obtain ⟨t, ht⟩ := List.exists_mem_of_ne_nil C hCne
      cases hsub t ht
    | cons a m => exact ⟨idsOf (a :: m), rfl⟩
  | succ n ih =>
    intro rem hsub
    cases rem with
    | nil =>
      obtain ⟨t, ht⟩ := List.exists_mem_of_ne_nil C hCne
      cases hsub t ht
    | cons a m =>
      have hnotready : ∀ t, t ∈ C → isReadyB ts (a :: m) t = false := by
        intro t ht
        obtain ⟨d, hd, hdc⟩ := htrap t ht
        cases hb : isReadyB ts (a :: m) t with
        | false => rfl
        | true =>
          obtain ⟨u, hu, hud⟩ := mem_idsOf.mp hdc
          exact absurd (mem_idsOf.mpr ⟨u, hsub u hu, hud⟩) (isReadyB_iff.mp hb d hd)
      rw [layerAux_cons_eq]
      cases hemp : ((a :: m).filter (fun t => isReadyB ts (a :: m) t)).isEmpty with
      | true =>
        exact ⟨idsOf (a :: m), rfl⟩
      | false =>
        simp only [Bool.false_eq_true, if_false]
        have hCrest : ∀ t, t ∈ C → t ∈ (a :: m).filter (fun x => !(isReadyB ts (a :: m) x)) := by
          intro t ht
          exact List.mem_filter.mpr ⟨hsub t ht, by simp [hnotready t ht]⟩
        obtain ⟨c, hc⟩ := ih ((a :: m).filter (fun x => !(isReadyB ts (a :: m) x))) hCrest
        rw [hc]
        exact ⟨c, rfl⟩

/-- C2 (amended): for every task set with pairwise-distinct produced files
whose dependency edges contain a cycle, `Build` fails with a
`CircularDependencyError`, and the whole run returns that error without
dispatching any task. -/
theorem c2_cycle_rejected (ts : List Task) (l : List String)
    (hdup : dupProducer ts = none) (hcyc : depCycleB ts l = true) :
    ∃ c, Build ts = Except.error (BuildError.circularDependency c) ∧
      ∀ (b : Behavior) (cfg : RunConfig) (fs : Fs) (c0 : Cache),
        runWorkflow b cfg fs c0 ts = Except.error (BuildError.circularDependency c) := by
  have hedges := depCycleB_mem_edge hcyc
  have hCtrap : ∀ t,
      t ∈ ts.filter (fun u => decide (u.id ∈ l) && (depIds ts u).any (fun d => decide (d ∈ l))) →
      ∃ d, d ∈ depIds ts t ∧
        d ∈ idsOf (ts.filter (fun u => decide (u.id ∈ l) && (depIds ts u).any (fun d => decide (d ∈ l)))) := by
    intro t ht
    obtain ⟨htm, htc⟩ := List.mem_filter.mp ht
    rw [Bool.and_eq_true, decide_eq_true_eq, List.any_eq_true] at htc
    obtain ⟨hidl, d, hd, hdl⟩ := htc
    rw [decide_eq_true_eq] at hdl
    obtain ⟨d2, hd2l, he2⟩ := hedges d hdl
    obtain ⟨v, hv, hvid, hvdep⟩ := edgeB_elim he2
    refine ⟨d, hd, ?_⟩
    refine mem_idsOf.mpr ⟨v, ?_, hvid⟩
    refine List.mem_filter.mpr ⟨hv, ?_⟩
    rw [Bool.and_eq_true, decide_eq_true_eq, List.any_eq_true]
    exact ⟨hvid ▸ hdl, d2, hvdep, decide_eq_true hd2l⟩
  have hCne : ts.filter (fun u => decide (u.id ∈ l) && (depIds ts u).any (fun d => decide (d ∈ l))) ≠ [] := by
    rw [depCycleB, Bool.and_eq_true, Bool.and_eq_true] at hcyc
    obtain ⟨⟨hlen, _⟩, _⟩ := hcyc
    rw [decide_eq_true_eq] at hlen
    cases l with
    | nil => simp at hlen
    | cons x m =>
      obtain ⟨d, hdl, he⟩ := hedges x (List.mem_cons_self x m)
      obtain ⟨v, hv, hvid, hvdep⟩ := edgeB_elim he
      apply List.ne_nil_of_mem
      show v ∈ _
      refine List.mem_filter.mpr ⟨hv, ?_⟩
      rw [Bool.and_eq_true, decide_eq_true_eq, List.any_eq_true]
      exact ⟨hvid ▸ List.mem_cons_self x m, d, hvdep, decide_eq_true hdl⟩
  obtain ⟨c, hc⟩ := layer_trapped _ hCne hCtrap ts.length ts
    (fun t ht => List.mem_of_mem_filter ht)
  have hlayer : Layer ts = Except.error (BuildError.circularDependency c) := hc
  have hbuild : Build ts = Except.error (BuildError.circularDependency c) := by
    unfold Build
    rw [hdup, hlayer]
  refine ⟨c, hbuild, ?_⟩
  intro b cfg fs c0
  unfold runWorkflow
  rw [hbuild]

/-- Counterexample to C2 as frozen: a task set whose dependency edges form
a cycle but on which `Build` reports a `DuplicateProducerError`, not a
`CircularDependencyError`, because both tasks also claim the same produced
file and the duplicate check runs first. -/
theorem c2_counterexample :
    depCycleB dupTs ["A", "B", "A"] = true ∧
    ∀ c, Build dupTs ≠ Except.error (BuildError.circularDependency c) := by
  constructor
  · decide
  · intro c h
    have hb : Build dupTs = Except.error (BuildError.duplicateProducer "f" "A" "B") := rfl
    rw [hb] at h
    injection h with h2
    exact BuildError.noConfusion h2

/-- Witness for C2 at the spec's Scenario B task set (a two-task file
cycle with distinct produced files). -/
theorem c2_cycle_rejected_witness :
    ∃ c, Build cycTs = Except.error (BuildError.circularDependency c) ∧
      ∀ (b : Behavior) (cfg : RunConfig) (fs : Fs) (c0 : Cache),
        runWorkflow b cfg fs c0 cycTs = Except.error (BuildError.circularDependency c) :=
  c2_cycle_rejected cycTs ["A", "B", "A"] (by decide) (by decide)

/-! ### Claim C10: default sequential dependencies within a phase -/

theorem applyDefaultDepsAux_cons (q : List Task) (t : Task) (rest : List Task) :
    applyDefaultDepsAux q (t :: rest) =
      (if t.dependsOn.isNone then withDefaultDeps q t else t)
        :: applyDefaultDepsAux (q ++ [t]) rest := rfl

theorem withDefaultDeps_id (q : List Task) (t : Task) : (withDefaultDeps q t).id = t.id := rfl

theorem withDefaultDeps_files (q : List Task) (t : Task) :
    (withDefaultDeps q t).files = t.files := rfl

theorem idsOf_append (l1 l2 : List Task) : idsOf (l1 ++ l2) = idsOf l1 ++ idsOf l2 := by
  unfold idsOf
  exact List.map_append (fun t => t.id) l1 l2

theorem idsOf_applyDefaultDepsAux :
    ∀ (sub q : List Task), idsOf (applyDefaultDepsAux q sub) = idsOf sub := by
  intro sub
  induction sub with
  | nil => intro q; rfl
  | cons t rest ih =>
    intro q
    rw [applyDefaultDepsAux_cons]
    show (if t.dependsOn.isNone then withDefaultDeps q t else t).id
        :: idsOf (applyDefaultDepsAux (q ++ [t]) rest) = t.id :: idsOf rest
    rw [ih (q ++ [t])]
    cases t.dependsOn <;> rfl

theorem mem_applyDefaultDepsAux :
    ∀ (sub q : List Task) (u2 : Task), u2 ∈ applyDefaultDepsAux q sub →
      (∀ x, x ∈ sub → x.dependsOn = none) →
      ∃ mid u suf, sub = mid ++ u :: suf ∧ u2 = withDefaultDeps (q ++ mid) u := by
  intro sub
  induction sub with
  | nil => intro q u2 hu _; cases hu
  | cons t rest ih =>
    intro q u2 hu hnone
    rw [applyDefaultDepsAux_cons] at hu
    rw [hnone t (List.mem_cons_self t rest)] at hu
    rcases List.mem_cons.mp hu with hh | hh
    · refine ⟨[], t, rest, rfl, ?_⟩
      rw [List.append_nil]
      simpa using hh
    · obtain ⟨mid, u, suf, hsub, hu2⟩ :=
        ih (q ++ [t]) u2 hh (fun x hx => hnone x (List.mem_cons_of_mem t hx))
      refine ⟨t :: mid, u, suf, ?_, ?_⟩
      · rw [hsub]; rfl
      · rw [hu2, ← List.append_cons]

theorem depIds_withDefault {plan pre suf : List Task} {t : Task}
    (hplan : plan = pre ++ t :: suf)
    (h2 : ∀ x, x ∈ plan → ∀ u, u ∈ plan → phaseOf x = phaseOf u)
    (h3 : ∀ x, x ∈ plan → x.files.tail = []) :
    depIds (applyDefaultDeps plan) (withDefaultDeps pre t) = idsOf pre := by
  have htm : t ∈ plan := by
    rw [hplan]
    exact List.mem_append.mpr (Or.inr (List.mem_cons_self t suf))
  have hfilter : pre.filter (fun u => decide (phaseOf u = phaseOf t)) = pre := by
    apply List.filter_eq_self.mpr
    intro u hu
    have hum : u ∈ plan := by
      rw [hplan]
      exact List.mem_append.mpr (Or.inl hu)
    exact decide_eq_true (h2 u hum t htm)
  have hdeps : (withDefaultDeps pre t).dependsOn = some (idsOf pre) := by
    rw [withDefaultDeps]
    show some (idsOf (pre.filter (fun u => decide (phaseOf u = phaseOf t)))) = some (idsOf pre)
    rw [hfilter]
  rw [depIds, hdeps]
  have hinf : inferredDeps (applyDefaultDeps plan) (withDefaultDeps pre t) = [] := by
    rw [inferredDeps]
    have : inputFiles (withDefaultDeps pre t) = [] := by
      rw [inputFiles, withDefaultDeps_files]
      exact h3 t htm
    rw [this]
    rfl
  rw [hinf, List.append_nil]
  show (idsOf pre).filter (fun i => hasId (applyDefaultDeps plan) i) = idsOf pre
  apply List.filter_eq_self.mpr
  intro i hi
  apply hasId_iff.mpr
  rw [applyDefaultDeps, idsOf_applyDefaultDepsAux, hplan, idsOf_append]
  exact List.mem_append.mpr (Or.inl hi)

theorem c10_layer_aux (plan : List Task)
    (h1 : ∀ x, x ∈ plan → x.dependsOn = none)
    (h2 : ∀ x, x ∈ plan → ∀ u, u ∈ plan → phaseOf x = phaseOf u)
    (h3 : ∀ x, x ∈ plan → x.files.tail = [])
    (h4 : (idsOf plan).Nodup) :
    ∀ (sub pre : List Task), plan = pre ++ sub →
      layerAux (applyDefaultDeps plan) (applyDefaultDepsAux pre sub).length
          (applyDefaultDepsAux pre sub) =
        Except.ok ((applyDefaultDepsAux pre sub).map (fun t => [t])) := by
  intro sub
  induction sub with
  | nil => intro pre _; rfl
  | cons t rest ih =>
    intro pre hplan
    have htnone : t.dependsOn = none := by
      apply h1
      rw [hplan]
      exact List.mem_append.mpr (Or.inr (List.mem_cons_self t rest))
    have hrestnone : ∀ x, x ∈ rest → x.dependsOn = none := by
      intro x hx
      apply h1
      rw [hplan]
      exact List.mem_append.mpr (Or.inr (List.mem_cons_of_mem t hx))
    rw [applyDefaultDepsAux_cons, htnone]
    show layerAux (applyDefaultDeps plan)
        ((withDefaultDeps pre t :: applyDefaultDepsAux (pre ++ [t]) rest)).length
        (withDefaultDeps pre t :: applyDefaultDepsAux (pre ++ [t]) rest) = _
    have hdt : depIds (applyDefaultDeps plan) (withDefaultDeps pre t) = idsOf pre :=
      depIds_withDefault hplan h2 h3
    have hdisj : ∀ d, d ∈ idsOf pre → d ∉ idsOf (t :: rest) := by
      intro d hd hdm
      have hN2 : (idsOf pre ++ idsOf (t :: rest)).Nodup := by
        rw [← idsOf_append, ← hplan]
        exact h4
      rw [List.nodup_append] at hN2
      exact hN2.2.2 hd hdm
    have hidsrem : idsOf (withDefaultDeps pre t :: applyDefaultDepsAux (pre ++ [t]) rest) =
        idsOf (t :: rest) := by
      show (withDefaultDeps pre t).id :: idsOf (applyDefaultDepsAux (pre ++ [t]) rest) = _
      rw [withDefaultDeps_id, idsOf_applyDefaultDepsAux]
      rfl
    have hreadyt : isReadyB (applyDefaultDeps plan)
        (withDefaultDeps pre t :: applyDefaultDepsAux (pre ++ [t]) rest)
        (withDefaultDeps pre t) = true := by
      rw [isReadyB_iff, hdt]
      intro d hd hdm
      rw [hidsrem] at hdm
      exact hdisj d hd hdm
    have hnotready : ∀ u2, u2 ∈ applyDefaultDepsAux (pre ++ [t]) rest →
        isReadyB (applyDefaultDeps plan)
          (withDefaultDeps pre t :: applyDefaultDepsAux (pre ++ [t]) rest) u2 = false := by
      intro u2 hu2
      obtain ⟨mid, u, suf, hrest, hu2eq⟩ :=
        mem_applyDefaultDepsAux rest (pre ++ [t]) u2 hu2 hrestnone
      have hplan2 : plan = ((pre ++ [t]) ++ mid) ++ u :: suf := by
        rw [hplan, hrest]
        simp [List.append_assoc]
      have hdu : depIds (applyDefaultDeps plan) u2 = idsOf ((pre ++ [t]) ++ mid) := by
        rw [hu2eq]
        exact depIds_withDefault hplan2 h2 h3
      cases hb : isReadyB (applyDefaultDeps plan)
          (withDefaultDeps pre t :: applyDefaultDepsAux (pre ++ [t]) rest) u2 with
      | false => rfl
      | true =>
        exfalso
        have htid : t.id ∈ depIds (applyDefaultDeps plan) u2 := by
          rw [hdu, idsOf_append, idsOf_append]
          exact List.mem_append.mpr (Or.inl (List.mem_append.mpr
            (Or.inr (List.mem_singleton_self t.id))))
        have htin : t.id ∈ idsOf (withDefaultDeps pre t :: applyDefaultDepsAux (pre ++ [t]) rest) := by
          rw [hidsrem]
          exact mem_idsOf.mpr ⟨t, List.mem_cons_self t rest, rfl⟩
        exact isReadyB_iff.mp hb t.id htid htin
    have hfilter1 : (withDefaultDeps pre t :: applyDefaultDepsAux (pre ++ [t]) rest).filter
        (fun x => isReadyB (applyDefaultDeps plan)
          (withDefaultDeps pre t :: applyDefaultDepsAux (pre ++ [t]) rest) x) =
        [withDefaultDeps pre t] := by
      rw [List.filter_cons, if_pos (by rw [hreadyt])]
      rw [List.filter_eq_nil_iff.mpr ?_]
      intro u2 hu2
      rw [hnotready u2 hu2]
      simp
    have hfilter2 : (withDefaultDeps pre t :: applyDefaultDepsAux (pre ++ [t]) rest).filter
        (fun x => !(isReadyB (applyDefaultDeps plan)
          (withDefaultDeps pre t :: applyDefaultDepsAux (pre ++ [t]) rest) x)) =
        applyDefaultDepsAux (pre ++ [t]) rest := by
      rw [List.filter_cons, if_neg (by rw [hreadyt]; simp)]
      apply List.filter_eq_self.mpr
      intro u2 hu2
      rw [hnotready u2 hu2]
      rfl
    have hrec := ih (pre ++ [t]) (by rw [hplan, List.append_cons pre t rest])
    rw [show (withDefaultDeps pre t :: applyDefaultDepsAux (pre ++ [t]) rest).length =
        (applyDefaultDepsAux (pre ++ [t]) rest).length + 1 from rfl]
    rw [layerAux_cons_eq, hfilter1]
    rw [hfilter2, hrec]
    show Except.ok ([withDefaultDeps pre t]
        :: (applyDefaultDepsAux (pre ++ [t]) rest).map (fun t => [t])) = _
    rfl

/-- C10: applying the documented default-dependency rule (a task without
`depends_on` depends on all prior tasks of its phase), a single-phase plan
in which no task declares `depends_on` or any input file layers into
strictly sequential singleton waves in plan order. -/
theorem c10_default_sequential (plan : List Task)
    (h1 : ∀ x, x ∈ plan → x.dependsOn = none)
    (h2 : ∀ x, x ∈ plan → ∀ u, u ∈ plan → phaseOf x = phaseOf u)
    (h3 : ∀ x, x ∈ plan → x.files.tail = [])
    (h4 : (idsOf plan).Nodup) :
    (∀ (pre : List Task) (t : Task),
      (withDefaultDeps pre t).dependsOn =
        some (idsOf (pre.filter (fun u => phaseOf u = phaseOf t)))) ∧
    Layer (applyDefaultDeps plan) =
      Except.ok ((applyDefaultDeps plan).map (fun t => [t])) := by
  constructor
  · intro pre t
    rfl
  · have h := c10_layer_aux plan h1 h2 h3 h4 plan [] rfl
    rw [Layer]
    have hlen : (applyDefaultDeps plan).length = (applyDefaultDepsAux [] plan).length := rfl
    rw [hlen]
    exact h

/-- Witness for C10: a three-task single-phase plan with no declared
dependencies layers into three singleton waves. -/
theorem c10_default_sequential_witness :
    (∀ (pre : List Task) (t : Task),
      (withDefaultDeps pre t).dependsOn =
        some (idsOf (pre.filter (fun u => phaseOf u = phaseOf t)))) ∧
    Layer (applyDefaultDeps [⟨"1.1", "", ["a"], "", "", "", none⟩,
        ⟨"1.2", "", ["b"], "", "", "", none⟩, ⟨"1.3", "", ["c"], "", "", "", none⟩]) =
      Except.ok ((applyDefaultDeps [⟨"1.1", "", ["a"], "", "", "", none⟩,
        ⟨"1.2", "", ["b"], "", "", "", none⟩,
        ⟨"1.3", "", ["c"], "", "", "", none⟩]).map (fun t => [t])) :=
  c10_default_sequential _ (by decide) (by decide) (by decide) (by decide)

/-! ### Claim C5: blocked tasks are never dispatched; aborted runs stop -/

theorem idsOf_cons (u : Task) (rest : List Task) : idsOf (u :: rest) = u.id :: idsOf rest := rfl

theorem depsSatisfiedB_false {recs : List TaskRecord} {ts : List Task} {t : Task} {d : String}
    (hd : d ∈ depIds ts t)
    (hnone : ∀ r, r ∈ recs → r.taskId = d → reachedSuccessB r = false) :
    depsSatisfiedB recs ts t = false := by
  cases hds : depsSatisfiedB recs ts t with
  | false => rfl
  | true =>
    exfalso
    rw [depsSatisfiedB, List.all_eq_true] at hds
    have := hds d hd
    rw [List.any_eq_true] at this
    obtain ⟨r, hr, hb⟩ := this
    rw [Bool.and_eq_true] at hb
    have h1 := beq_iff_eq.mp hb.1
    have h2 := hnone r hr h1
    rw [h2] at hb
    exact Bool.noConfusion hb.2

theorem runTasksInWave_blocked {b : Behavior} {cfg : RunConfig} {ts : List Task} :
    ∀ (wave : List Task) (recs : List TaskRecord) (c : Cache) (fs : Fs) (t : Task),
      t ∈ wave → (idsOf wave).Nodup →
      (∀ d, d ∈ depIds ts t → d ∉ idsOf wave) →
      (∃ d, d ∈ depIds ts t ∧ ∀ r, r ∈ recs → r.taskId = d → reachedSuccessB r = false) →
      (runTasksInWave b cfg ts wave recs c fs).records.find? (fun r => r.taskId == t.id) =
        some (blockedRecord t) := by
  intro wave
  induction wave with
  | nil => intro recs c fs t ht; cases ht
  | cons u rest ih =>
    intro recs c fs t ht hN hout hfail
    rcases List.mem_cons.mp ht with hteq | htm
    · subst hteq
      obtain ⟨d, hd, hnone⟩ := hfail
      have hds : depsSatisfiedB recs ts t = false := depsSatisfiedB_false hd hnone
      rw [runTasksInWave, hds]
      simp only [Bool.false_eq_true, if_false]
      apply List.find?_cons_of_pos
      simp [blockedRecord]
    · rw [idsOf_cons] at hN
      have hne : u.id ≠ t.id := by
        intro he
        exact (List.nodup_cons.mp hN).1 (he ▸ mem_idsOf.mpr ⟨t, htm, rfl⟩)
      have hNrest : (idsOf rest).Nodup := (List.nodup_cons.mp hN).2
      have hout2 : ∀ d, d ∈ depIds ts t → d ∉ idsOf rest := by
        intro d hd hdm
        apply hout d hd
        rw [idsOf_cons]
        exact List.mem_cons_of_mem u.id hdm
      have hudne : ∀ d, d ∈ depIds ts t → u.id ≠ d := by
        intro d hd he
        apply hout d hd
        rw [idsOf_cons]
        exact he ▸ List.mem_cons_self u.id (idsOf rest)
      obtain ⟨d, hd, hnone⟩ := hfail
      have hfail2 : ∀ (rec : TaskRecord), rec.taskId = u.id →
          ∃ d2, d2 ∈ depIds ts t ∧
            ∀ r, r ∈ recs ++ [rec] → r.taskId = d2 → reachedSuccessB r = false := by
        intro rec hrec
        refine ⟨d, hd, ?_⟩
        intro r hr hrd
        rcases List.mem_append.mp hr with h | h
        · exact hnone r h hrd
        · rw [List.mem_singleton.mp h] at hrd
          rw [hrec] at hrd
          exact absurd hrd (hudne d hd)
      cases hds : depsSatisfiedB recs ts u with
      | true =>
        rw [runTasksInWave, hds]
        simp only [if_true]
        rw [List.find?_cons_of_neg _ (by simp [mkRecord, hne])]
        exact ih _ _ _ t htm hNrest hout2 (hfail2 _ rfl)
      | false =>
        rw [runTasksInWave, hds]
        simp only [Bool.false_eq_true, if_false]
        rw [List.find?_cons_of_neg _ (by simp [blockedRecord, hne])]
        exact ih _ _ _ t htm hNrest hout2 (hfail2 _ rfl)

theorem runTasksInWave_ids {b : Behavior} {cfg : RunConfig} {ts : List Task} :
    ∀ (wave : List Task) (recs : List TaskRecord) (c : Cache) (fs : Fs),
      recordIds (runTasksInWave b cfg ts wave recs c fs).records = idsOf wave := by
  intro wave
  induction wave with
  | nil => intro recs c fs; rfl
  | cons u rest ih =>
    intro recs c fs
    cases hds : depsSatisfiedB recs ts u with
    | true =>
      rw [runTasksInWave, hds]
      simp only [if_true]
      show u.id :: recordIds (runTasksInWave b cfg ts rest _ _ _).records = u.id :: idsOf rest
      rw [ih]
    | false =>
      rw [runTasksInWave, hds]
      simp only [Bool.false_eq_true, if_false]
      show u.id :: recordIds (runTasksInWave b cfg ts rest _ _ _).records = u.id :: idsOf rest
      rw [ih]

/-- C5: (1) a task in a wave one of whose direct dependencies has no
record reporting success is not dispatched and is recorded
Skipped(blocked) with zero invocations; (2) with `continue_on_failure`
false, a failure inside the first wave aborts the run: the result reports
aborted, and the records extend only over the first wave's tasks, so no
task of any later wave is ever dispatched. -/
theorem c5_blocked_and_abort :
    (∀ (b : Behavior) (cfg : RunConfig) (ts wave : List Task) (recs : List TaskRecord)
        (c : Cache) (fs : Fs) (t : Task),
      t ∈ wave → (idsOf wave).Nodup →
      (∀ d, d ∈ depIds ts t → d ∉ idsOf wave) →
      (∃ d, d ∈ depIds ts t ∧ ∀ r, r ∈ recs → r.taskId = d → reachedSuccessB r = false) →
      (runTasksInWave b cfg ts wave recs c fs).records.find? (fun r => r.taskId == t.id) =
        some (blockedRecord t)) ∧
    (∀ (b : Behavior) (cfg : RunConfig) (ts w1 : List Task) (rest : List (List Task))
        (recs : List TaskRecord) (c : Cache) (fs : Fs),
      cfg.continueOnFailure = false →
      (runTasksInWave b cfg ts w1 recs c fs).records.any
        (fun r => decide (r.status = TaskStatus.failed)) = true →
      (runWaves b cfg ts (w1 :: rest) recs c fs).aborted = true ∧
      (runWaves b cfg ts (w1 :: rest) recs c fs).records =
        recs ++ (runTasksInWave b cfg ts w1 recs c fs).records ∧
      recordIds (runTasksInWave b cfg ts w1 recs c fs).records = idsOf w1) := by
  constructor
  · intro b cfg ts wave recs c fs t ht hN hout hfail
    exact runTasksInWave_blocked wave recs c fs t ht hN hout hfail
  · intro b cfg ts w1 rest recs c fs hcont hfail
    have habort : runWaves b cfg ts (w1 :: rest) recs c fs =
        ⟨recs ++ (runTasksInWave b cfg ts w1 recs c fs).records, true,
          (runTasksInWave b cfg ts w1 recs c fs).cache,
          (runTasksInWave b cfg ts w1 recs c fs).fs⟩ := by
      rw [runWaves]
      simp [hfail, hcont]
    rw [habort]
    exact ⟨rfl, rfl, runTasksInWave_ids w1 recs c fs⟩

/-- Witness for C5: task B (whose dependency A is recorded Failed) is
recorded Skipped(blocked); and a wave-1 failure with continue-on-failure
off aborts before the second wave. -/
theorem c5_blocked_and_abort_witness :
    ((runTasksInWave ⟨fun _ _ => ExecOutcome.ok, fun _ => "", fun _ _ => VerifyRun.exit 1 "x"⟩
        ⟨0, false, true, []⟩ exTs [exB] [⟨"A", TaskStatus.failed, 0, none, 1, 1, 1⟩]
        [] (fun _ => "")).records.find? (fun r => r.taskId == exB.id) =
      some (blockedRecord exB)) ∧
    ((runWaves ⟨fun _ _ => ExecOutcome.ok, fun _ => "", fun _ _ => VerifyRun.exit 1 "x"⟩
        ⟨0, false, true, []⟩ exTs [[exA], [exB]] [] [] (fun _ => "")).aborted = true ∧
      (runWaves ⟨fun _ _ => ExecOutcome.ok, fun _ => "", fun _ _ => VerifyRun.exit 1 "x"⟩
        ⟨0, false, true, []⟩ exTs [[exA], [exB]] [] [] (fun _ => "")).records =
        [] ++ (runTasksInWave ⟨fun _ _ => ExecOutcome.ok, fun _ => "", fun _ _ => VerifyRun.exit 1 "x"⟩
          ⟨0, false, true, []⟩ exTs [exA] [] [] (fun _ => "")).records ∧
      recordIds (runTasksInWave ⟨fun _ _ => ExecOutcome.ok, fun _ => "", fun _ _ => VerifyRun.exit 1 "x"⟩
        ⟨0, false, true, []⟩ exTs [exA] [] [] (fun _ => "")).records = idsOf [exA]) :=
  ⟨c5_blocked_and_abort.1 ⟨fun _ _ => ExecOutcome.ok, fun _ => "", fun _ _ => VerifyRun.exit 1 "x"⟩
      ⟨0, false, true, []⟩ exTs [exB] [⟨"A", TaskStatus.failed, 0, none, 1, 1, 1⟩]
      [] (fun _ => "") exB (by decide) (by decide) (by decide) (by decide),
    c5_blocked_and_abort.2 ⟨fun _ _ => ExecOutcome.ok, fun _ => "", fun _ _ => VerifyRun.exit 1 "x"⟩
      ⟨0, false, true, []⟩ exTs [exA] [[exB]] [] [] (fun _ => "") (by decide) (by decide)⟩

/-! ### Claim C4: cache idempotence machinery -/

theorem mem_inferredDeps {ts : List Task} {t u : Task} {f : String}
    (hdup : dupProducer ts = none) (hu : u ∈ ts) (hf : f ∈ inputFiles t)
    (hp : producedFile u = some f) (hne : u.id ≠ t.id) :
    u.id ∈ inferredDeps ts t := by
  rw [inferredDeps, List.mem_filterMap]
  refine ⟨f, hf, ?_⟩
  rw [producerOf_eq hdup hu hp]
  simp [hne]

theorem mem_recordIds {l : List TaskRecord} {i : String} :
    i ∈ recordIds l ↔ ∃ r, r ∈ l ∧ r.taskId = i := by
  simp [recordIds, List.mem_map]

theorem recordIds_append (l1 l2 : List TaskRecord) :
    recordIds (l1 ++ l2) = recordIds l1 ++ recordIds l2 := by
  unfold recordIds
  exact List.map_append (fun r => r.taskId) l1 l2

theorem coordinate_hit {b : Behavior} {cfg : RunConfig} {c : Cache} {fs : Fs} {t : Task}
    (hcfg : cfg.cacheEnabled = true) (hk : cacheKey fs t ∈ c) :
    coordinate b cfg c fs t = ⟨⟨TaskStatus.skippedCached, 0, none, 0, 0, 0, false⟩, c, fs⟩ := by
  unfold coordinate
  rw [hcfg]
  simp [hk]

theorem coordinate_cache_mono {b : Behavior} {cfg : RunConfig} {c : Cache} {fs : Fs} {t : Task}
    {k : CacheKey} (hk : k ∈ c) : k ∈ (coordinate b cfg c fs t).cache := by
  unfold coordinate
  by_cases h1 : (cfg.cacheEnabled && decide (cacheKey fs t ∈ c)) = true
  · rw [if_pos h1]
    exact hk
  · rw [if_neg h1]
    by_cases h2 : isForbidden cfg.deny t.verify = true
    · rw [if_pos h2]
      exact hk
    · rw [if_neg h2]
      show k ∈ (if (runAttempts b t cfg.maxRetries 0).status = TaskStatus.succeeded
          then cacheKey (if (runAttempts b t cfg.maxRetries 0).wroteFile
            then updateFs fs t (b.output t.id) else fs) t :: c else c)
      by_cases h3 : (runAttempts b t cfg.maxRetries 0).status = TaskStatus.succeeded
      · rw [if_pos h3]
        exact List.mem_cons_of_mem _ hk
      · rw [if_neg h3]
        exact hk

theorem coordinate_cache_new {b : Behavior} {cfg : RunConfig} {c : Cache} {fs : Fs} {t : Task}
    {k : CacheKey} (hk : k ∈ (coordinate b cfg c fs t).cache) : k ∈ c ∨ k.taskId = t.id := by
  unfold coordinate at hk
  by_cases h1 : (cfg.cacheEnabled && decide (cacheKey fs t ∈ c)) = true
  · rw [if_pos h1] at hk
    exact Or.inl hk
  · rw [if_neg h1] at hk
    by_cases h2 : isForbidden cfg.deny t.verify = true
    · rw [if_pos h2] at hk
      exact Or.inl hk
    · rw [if_neg h2] at hk
      have hk2 : k ∈ (if (runAttempts b t cfg.maxRetries 0).status = TaskStatus.succeeded
          then cacheKey (if (runAttempts b t cfg.maxRetries 0).wroteFile
            then updateFs fs t (b.output t.id) else fs) t :: c else c) := hk
      by_cases h3 : (runAttempts b t cfg.maxRetries 0).status = TaskStatus.succeeded
      · rw [if_pos h3] at hk2
        rcases List.mem_cons.mp hk2 with h | h
        · right
          rw [h]
          rfl
        · exact Or.inl h
      · rw [if_neg h3] at hk2
        exact Or.inl hk2

theorem coordinate_fs_writes {b : Behavior} {cfg : RunConfig} {c : Cache} {fs : Fs} {t : Task}
    {g : String} (h : (coordinate b cfg c fs t).fs g ≠ fs g) : producedFile t = some g := by
  unfold coordinate at h
  by_cases h1 : (cfg.cacheEnabled && decide (cacheKey fs t ∈ c)) = true
  · rw [if_pos h1] at h
    exact absurd rfl h
  · rw [if_neg h1] at h
    by_cases h2 : isForbidden cfg.deny t.verify = true
    · rw [if_pos h2] at h
      exact absurd rfl h
    · rw [if_neg h2] at h
      have h3 : (if (runAttempts b t cfg.maxRetries 0).wroteFile
          then updateFs fs t (b.output t.id) else fs) g ≠ fs g := h
      by_cases h4 : (runAttempts b t cfg.maxRetries 0).wroteFile = true
      · rw [if_pos h4] at h3
        rw [updateFs] at h3
        cases hp : producedFile t with
        | none => rw [hp] at h3; exact absurd rfl h3
        | some f =>
          rw [hp] at h3
          by_cases h5 : g = f
          · rw [h5]
          · simp only [if_neg h5] at h3
            exact absurd rfl h3
      · rw [if_neg h4] at h3
        exact absurd rfl h3

theorem coordinate_stores {b : Behavior} {cfg : RunConfig} {c : Cache} {fs : Fs} {t : Task}
    (h : (coordinate b cfg c fs t).result.status = TaskStatus.succeeded) :
    cacheKey (coordinate b cfg c fs t).fs t ∈ (coordinate b cfg c fs t).cache := by
  unfold coordinate at h ⊢
  by_cases h1 : (cfg.cacheEnabled && decide (cacheKey fs t ∈ c)) = true
  · rw [if_pos h1] at h
    exact absurd h (by simp)
  · rw [if_neg h1] at h ⊢
    by_cases h2 : isForbidden cfg.deny t.verify = true
    · rw [if_pos h2] at h
      exact absurd h (by simp)
    · rw [if_neg h2] at h ⊢
      have h3 : (runAttempts b t cfg.maxRetries 0).status = TaskStatus.succeeded := h
      show cacheKey (if (runAttempts b t cfg.maxRetries 0).wroteFile
          then updateFs fs t (b.output t.id) else fs) t ∈
        (if (runAttempts b t cfg.maxRetries 0).status = TaskStatus.succeeded
          then cacheKey (if (runAttempts b t cfg.maxRetries 0).wroteFile
            then updateFs fs t (b.output t.id) else fs) t :: c else c)
      rw [if_pos h3]
      exact List.mem_cons_self _ _

theorem wave_cache_mono {b : Behavior} {cfg : RunConfig} {ts : List Task} :
    ∀ (wave : List Task) (recs : List TaskRecord) (c : Cache) (fs : Fs) (k : CacheKey),
      k ∈ c → k ∈ (runTasksInWave b cfg ts wave recs c fs).cache := by
  intro wave
  induction wave with
  | nil => intro recs c fs k hk; exact hk
  | cons t rest ih =>
    intro recs c fs k hk
    cases hds : depsSatisfiedB recs ts t with
    | true =>
      rw [runTasksInWave, hds]
      simp only [if_true]
      exact ih _ _ _ k (coordinate_cache_mono hk)
    | false =>
      rw [runTasksInWave, hds]
      simp only [Bool.false_eq_true, if_false]
      exact ih _ _ _ k hk

theorem wave_fs_writes {b : Behavior} {cfg : RunConfig} {ts : List Task} :
    ∀ (wave : List Task) (recs : List TaskRecord) (c : Cache) (fs : Fs) (g : String),
      (runTasksInWave b cfg ts wave recs c fs).fs g ≠ fs g →
      ∃ u, u ∈ wave ∧ producedFile u = some g := by
  intro wave
  induction wave with
  | nil => intro recs c fs g h; exact absurd rfl h
  | cons t rest ih =>
    intro recs c fs g h
    cases hds : depsSatisfiedB recs ts t with
    | true =>
      rw [runTasksInWave, hds] at h
      simp only [if_true] at h
      by_cases h2 : (coordinate b cfg c fs t).fs g = fs g
      · rw [← h2] at h
        obtain ⟨u, hu, hpu⟩ := ih _ _ _ g h
        exact ⟨u, List.mem_cons_of_mem t hu, hpu⟩
      · exact ⟨t, List.mem_cons_self t rest, coordinate_fs_writes h2⟩
    | false =>
      rw [runTasksInWave, hds] at h
      simp only [Bool.false_eq_true, if_false] at h
      obtain ⟨u, hu, hpu⟩ := ih _ _ _ g h
      exact ⟨u, List.mem_cons_of_mem t hu, hpu⟩

theorem keysWave {b : Behavior} {cfg : RunConfig} {ts : List Task}
    (hdup : dupProducer ts = none) :
    ∀ (wave : List Task) (recs : List TaskRecord) (c : Cache) (fs : Fs),
      (∀ r, r ∈ (runTasksInWave b cfg ts wave recs c fs).records →
        r.status = TaskStatus.succeeded) →
      (recordIds recs ++ idsOf wave).Nodup →
      (∀ k, k ∈ c → k.taskId ∈ recordIds recs) →
      (∀ u, u ∈ wave → u ∈ ts) →
      (∀ t, t ∈ wave →
        cacheKey (runTasksInWave b cfg ts wave recs c fs).fs t ∈
          (runTasksInWave b cfg ts wave recs c fs).cache) ∧
      (∀ k, k ∈ (runTasksInWave b cfg ts wave recs c fs).cache →
        k.taskId ∈ recordIds recs ++ idsOf wave) ∧
      (∀ t, t ∈ wave → ∀ d, d ∈ depIds ts t → d ∈ recordIds recs ++ idsOf wave) := by
  intro wave
  induction wave with
  | nil =>
    intro recs c fs _ _ hck _
    refine ⟨?_, ?_, ?_⟩
    · intro t ht; cases ht
    · intro k hk
      exact List.mem_append.mpr (Or.inl (hck k hk))
    · intro t ht; cases ht
  | cons t rest ih =>
    intro recs c fs hsucc hN hck hsub
    have hds : depsSatisfiedB recs ts t = true := by
      cases hds : depsSatisfiedB recs ts t with
      | true => rfl
      | false =>
        exfalso
        have hm : blockedRecord t ∈ (runTasksInWave b cfg ts (t :: rest) recs c fs).records := by
          rw [runTasksInWave, hds]
          simp only [Bool.false_eq_true, if_false]
          exact List.mem_cons_self _ _
        have := hsucc _ hm
        exact absurd this (by simp [blockedRecord])
    have hrw : runTasksInWave b cfg ts (t :: rest) recs c fs =
        ⟨mkRecord t (coordinate b cfg c fs t).result ::
          (runTasksInWave b cfg ts rest (recs ++ [mkRecord t (coordinate b cfg c fs t).result])
            (coordinate b cfg c fs t).cache (coordinate b cfg c fs t).fs).records,
          (runTasksInWave b cfg ts rest (recs ++ [mkRecord t (coordinate b cfg c fs t).result])
            (coordinate b cfg c fs t).cache (coordinate b cfg c fs t).fs).cache,
          (runTasksInWave b cfg ts rest (recs ++ [mkRecord t (coordinate b cfg c fs t).result])
            (coordinate b cfg c fs t).cache (coordinate b cfg c fs t).fs).fs⟩ := by
      rw [runTasksInWave, hds]
      rfl
    have hstat : (coordinate b cfg c fs t).result.status = TaskStatus.succeeded := by
      have hm : mkRecord t (coordinate b cfg c fs t).result ∈
          (runTasksInWave b cfg ts (t :: rest) recs c fs).records := by
        rw [hrw]
        exact List.mem_cons_self _ _
      exact hsucc _ hm
    have hsucc2 : ∀ r, r ∈ (runTasksInWave b cfg ts rest
        (recs ++ [mkRecord t (coordinate b cfg c fs t).result])
        (coordinate b cfg c fs t).cache (coordinate b cfg c fs t).fs).records →
        r.status = TaskStatus.succeeded := by
      intro r hr
      apply hsucc
      rw [hrw]
      exact List.mem_cons_of_mem _ hr
    have hrid : recordIds (recs ++ [mkRecord t (coordinate b cfg c fs t).result]) =
        recordIds recs ++ [t.id] := by
      rw [recordIds_append]
      rfl
    have hlists : recordIds (recs ++ [mkRecord t (coordinate b cfg c fs t).result]) ++
        idsOf rest = recordIds recs ++ idsOf (t :: rest) := by
      rw [hrid, idsOf_cons, List.append_assoc]
      rfl
    have hN2 : (recordIds (recs ++ [mkRecord t (coordinate b cfg c fs t).result]) ++
        idsOf rest).Nodup := by
      rw [hlists]
      exact hN
    have hck2 : ∀ k, k ∈ (coordinate b cfg c fs t).cache →
        k.taskId ∈ recordIds (recs ++ [mkRecord t (coordinate b cfg c fs t).result]) := by
      intro k hk
      rw [hrid]
      rcases coordinate_cache_new hk with h | h
      · exact List.mem_append.mpr (Or.inl (hck k h))
      · exact List.mem_append.mpr (Or.inr (h ▸ List.mem_singleton_self t.id))
    have hsub2 : ∀ u, u ∈ rest → u ∈ ts := fun u hu => hsub u (List.mem_cons_of_mem t hu)
    obtain ⟨ihKeys, ihDom, ihDeps⟩ := ih _ _ _ hsucc2 hN2 hck2 hsub2
    have hdisj : ∀ i, i ∈ recordIds recs → i ∈ idsOf (t :: rest) → False := by
      intro i h1 h2
      rw [List.nodup_append] at hN
      exact hN.2.2 h1 h2
    have hdepmem : ∀ d, d ∈ depIds ts t → d ∈ recordIds recs := by
      intro d hd
      rw [depsSatisfiedB, List.all_eq_true] at hds
      have := hds d hd
      rw [List.any_eq_true] at this
      obtain ⟨r, hr, hb⟩ := this
      rw [Bool.and_eq_true] at hb
      exact mem_recordIds.mpr ⟨r, hr, beq_iff_eq.mp hb.1⟩
    have htid_notin : t.id ∉ idsOf rest := by
      rw [List.nodup_append] at hN
      have := hN.2.1
      rw [idsOf_cons, List.nodup_cons] at this
      exact this.1
    have hstab : cacheKey (runTasksInWave b cfg ts rest
        (recs ++ [mkRecord t (coordinate b cfg c fs t).result])
        (coordinate b cfg c fs t).cache (coordinate b cfg c fs t).fs).fs t =
        cacheKey (coordinate b cfg c fs t).fs t := by
      apply cacheKey_congr
      intro f hf
      by_contra hne
      obtain ⟨u, hu, hpu⟩ := wave_fs_writes rest _ _ _ f hne
      have hneid : u.id ≠ t.id := by
        intro he
        exact htid_notin (he ▸ mem_idsOf.mpr ⟨u, hu, rfl⟩)
      have hinf : u.id ∈ inferredDeps ts t :=
        mem_inferredDeps hdup (hsub2 u hu) hf hpu hneid
      have hdep : u.id ∈ depIds ts t := by
        rw [depIds]
        exact List.mem_append.mpr (Or.inr hinf)
      have h1 := hdepmem u.id hdep
      have h2 : u.id ∈ idsOf (t :: rest) := by
        rw [idsOf_cons]
        exact List.mem_cons_of_mem t.id (mem_idsOf.mpr ⟨u, hu, rfl⟩)
      exact hdisj u.id h1 h2
    refine ⟨?_, ?_, ?_⟩
    · intro u hu
      rw [hrw]
      rcases List.mem_cons.mp hu with hut | hur
      · subst hut
        show cacheKey (runTasksInWave b cfg ts rest _ _ _).fs u ∈
          (runTasksInWave b cfg ts rest _ _ _).cache
        rw [hstab]
        exact wave_cache_mono rest _ _ _ _ (coordinate_stores hstat)
      · exact ihKeys u hur
    · intro k hk
      rw [hrw] at hk
      have := ihDom k hk
      rw [hlists] at this
      exact this
    · intro u hu d hd
      rcases List.mem_cons.mp hu with hut | hur
      · subst hut
        exact List.mem_append.mpr (Or.inl (hdepmem d hd))
      · have := ihDeps u hur d hd
        rw [hlists] at this
        exact this

theorem runWaves_cons_eq {b : Behavior} {cfg : RunConfig} {ts : List Task}
    {w : List Task} {ws : List (List Task)} {recs : List TaskRecord} {c : Cache} {fs : Fs} :
    runWaves b cfg ts (w :: ws) recs c fs =
      (if (runTasksInWave b cfg ts w recs c fs).records.any
            (fun r => decide (r.status = TaskStatus.failed)) && !cfg.continueOnFailure then
        ⟨recs ++ (runTasksInWave b cfg ts w recs c fs).records, true,
          (runTasksInWave b cfg ts w recs c fs).cache,
          (runTasksInWave b cfg ts w recs c fs).fs⟩
      else
        runWaves b cfg ts ws (recs ++ (runTasksInWave b cfg ts w recs c fs).records)
          (runTasksInWave b cfg ts w recs c fs).cache
          (runTasksInWave b cfg ts w recs c fs).fs) := rfl

theorem waves_records_prefix {b : Behavior} {cfg : RunConfig} {ts : List Task} :
    ∀ (ws : List (List Task)) (recs : List TaskRecord) (c : Cache) (fs : Fs),
      ∃ extra, (runWaves b cfg ts ws recs c fs).records = recs ++ extra := by
  intro ws
  induction ws with
  | nil =>
    intro recs c fs
    exact ⟨[], (List.append_nil recs).symm⟩
  | cons w ws2 ih =>
    intro recs c fs
    rw [runWaves_cons_eq]
    by_cases hb : ((runTasksInWave b cfg ts w recs c fs).records.any
        (fun r => decide (r.status = TaskStatus.failed)) && !cfg.continueOnFailure) = true
    · rw [if_pos hb]
      exact ⟨(runTasksInWave b cfg ts w recs c fs).records, rfl⟩
    · rw [if_neg hb]
      obtain ⟨extra, he⟩ := ih (recs ++ (runTasksInWave b cfg ts w recs c fs).records)
        (runTasksInWave b cfg ts w recs c fs).cache (runTasksInWave b cfg ts w recs c fs).fs
      exact ⟨(runTasksInWave b cfg ts w recs c fs).records ++ extra, by
        rw [he, List.append_assoc]⟩

theorem waves_wave_mem {b : Behavior} {cfg : RunConfig} {ts : List Task}
    {w : List Task} {ws : List (List Task)} {recs : List TaskRecord} {c : Cache} {fs : Fs}
    {r : TaskRecord} (hr : r ∈ (runTasksInWave b cfg ts w recs c fs).records) :
    r ∈ (runWaves b cfg ts (w :: ws) recs c fs).records := by
  rw [runWaves_cons_eq]
  by_cases hb : ((runTasksInWave b cfg ts w recs c fs).records.any
      (fun r => decide (r.status = TaskStatus.failed)) && !cfg.continueOnFailure) = true
  · rw [if_pos hb]
    exact List.mem_append.mpr (Or.inr hr)
  · rw [if_neg hb]
    obtain ⟨extra, he⟩ := waves_records_prefix ws
      (recs ++ (runTasksInWave b cfg ts w recs c fs).records)
      (runTasksInWave b cfg ts w recs c fs).cache (runTasksInWave b cfg ts w recs c fs).fs
    rw [he]
    exact List.mem_append.mpr (Or.inl (List.mem_append.mpr (Or.inr hr)))

theorem waves_step_no_fail {b : Behavior} {cfg : RunConfig} {ts : List Task}
    {w : List Task} {ws : List (List Task)} {recs : List TaskRecord} {c : Cache} {fs : Fs}
    (hsucc : ∀ r, r ∈ (runWaves b cfg ts (w :: ws) recs c fs).records →
      r.status = TaskStatus.succeeded) :
    (runTasksInWave b cfg ts w recs c fs).records.any
      (fun r => decide (r.status = TaskStatus.failed)) = false := by
  cases hany : (runTasksInWave b cfg ts w recs c fs).records.any
      (fun r => decide (r.status = TaskStatus.failed)) with
  | false => rfl
  | true =>
    exfalso
    rw [List.any_eq_true] at hany
    obtain ⟨r, hr, hb⟩ := hany
    rw [decide_eq_true_eq] at hb
    have := hsucc r (waves_wave_mem hr)
    rw [this] at hb
    exact TaskStatus.noConfusion hb

theorem waves_cache_mono {b : Behavior} {cfg : RunConfig} {ts : List Task} :
    ∀ (ws : List (List Task)) (recs : List TaskRecord) (c : Cache) (fs : Fs) (k : CacheKey),
      k ∈ c → k ∈ (runWaves b cfg ts ws recs c fs).cache := by
  intro ws
  induction ws with
  | nil => intro recs c fs k hk; exact hk
  | cons w ws2 ih =>
    intro recs c fs k hk
    rw [runWaves_cons_eq]
    by_cases hb : ((runTasksInWave b cfg ts w recs c fs).records.any
        (fun r => decide (r.status = TaskStatus.failed)) && !cfg.continueOnFailure) = true
    · rw [if_pos hb]
      exact wave_cache_mono w recs c fs k hk
    · rw [if_neg hb]
      exact ih _ _ _ k (wave_cache_mono w recs c fs k hk)

theorem waves_fs_writes {b : Behavior} {cfg : RunConfig} {ts : List Task} :
    ∀ (ws : List (List Task)) (recs : List TaskRecord) (c : Cache) (fs : Fs) (g : String),
      (runWaves b cfg ts ws recs c fs).fs g ≠ fs g →
      ∃ u, u ∈ ws.flatten ∧ producedFile u = some g := by
  intro ws
  induction ws with
  | nil => intro recs c fs g h; exact absurd rfl h
  | cons w ws2 ih =>
    intro recs c fs g h
    rw [runWaves_cons_eq] at h
    by_cases hb : ((runTasksInWave b cfg ts w recs c fs).records.any
        (fun r => decide (r.status = TaskStatus.failed)) && !cfg.continueOnFailure) = true
    · rw [if_pos hb] at h
      obtain ⟨u, hu, hpu⟩ := wave_fs_writes w recs c fs g h
      exact ⟨u, by rw [List.flatten_cons]; exact List.mem_append.mpr (Or.inl hu), hpu⟩
    · rw [if_neg hb] at h
      by_cases h2 : (runTasksInWave b cfg ts w recs c fs).fs g = fs g
      · rw [← h2] at h
        obtain ⟨u, hu, hpu⟩ := ih _ _ _ g h
        exact ⟨u, by rw [List.flatten_cons]; exact List.mem_append.mpr (Or.inr hu), hpu⟩
      · obtain ⟨u, hu, hpu⟩ := wave_fs_writes w recs c fs g h2
        exact ⟨u, by rw [List.flatten_cons]; exact List.mem_append.mpr (Or.inl hu), hpu⟩

theorem keysWaves {b : Behavior} {cfg : RunConfig} {ts : List Task}
    (hdup : dupProducer ts = none) :
    ∀ (ws : List (List Task)) (recs : List TaskRecord) (c : Cache) (fs : Fs),
      (∀ r, r ∈ (runWaves b cfg ts ws recs c fs).records →
        r.status = TaskStatus.succeeded) →
      (recordIds recs ++ idsOf ws.flatten).Nodup →
      (∀ k, k ∈ c → k.taskId ∈ recordIds recs) →
      (∀ u, u ∈ ws.flatten → u ∈ ts) →
      (∀ t, t ∈ ws.flatten →
        cacheKey (runWaves b cfg ts ws recs c fs).fs t ∈
          (runWaves b cfg ts ws recs c fs).cache) := by
  intro ws
  induction ws with
  | nil => intro recs c fs _ _ _ _ t ht; cases ht
  | cons w ws2 ih =>
    intro recs c fs hsucc hN hck hsub
    have hnofail := waves_step_no_fail hsucc
    have hout : runWaves b cfg ts (w :: ws2) recs c fs =
        runWaves b cfg ts ws2 (recs ++ (runTasksInWave b cfg ts w recs c fs).records)
          (runTasksInWave b cfg ts w recs c fs).cache
          (runTasksInWave b cfg ts w recs c fs).fs := by
      rw [runWaves_cons_eq, hnofail]
      rfl
    have hflat : idsOf (w :: ws2).flatten = idsOf w ++ idsOf ws2.flatten := by
      rw [List.flatten_cons, idsOf_append]
    have hsubw : ∀ u, u ∈ w → u ∈ ts := by
      intro u hu
      apply hsub
      rw [List.flatten_cons]
      exact List.mem_append.mpr (Or.inl hu)
    have hsub2 : ∀ u, u ∈ ws2.flatten → u ∈ ts := by
      intro u hu
      apply hsub
      rw [List.flatten_cons]
      exact List.mem_append.mpr (Or.inr hu)
    have hsuccw : ∀ r, r ∈ (runTasksInWave b cfg ts w recs c fs).records →
        r.status = TaskStatus.succeeded :=
      fun r hr => hsucc r (waves_wave_mem hr)
    have hNw : (recordIds recs ++ idsOf w).Nodup := by
      have hsubl : (recordIds recs ++ idsOf w).Sublist
          (recordIds recs ++ (idsOf w ++ idsOf ws2.flatten)) :=
        (List.sublist_append_left (idsOf w) (idsOf ws2.flatten)).append_left (recordIds recs)
      apply hsubl.nodup
      rw [← hflat]
      exact hN
    obtain ⟨hkeysw, hdomw, hdepsw⟩ := keysWave hdup w recs c fs hsuccw hNw hck hsubw
    have hrid2 : recordIds (recs ++ (runTasksInWave b cfg ts w recs c fs).records) =
        recordIds recs ++ idsOf w := by
      rw [recordIds_append, runTasksInWave_ids]
    have hN2 : (recordIds (recs ++ (runTasksInWave b cfg ts w recs c fs).records) ++
        idsOf ws2.flatten).Nodup := by
      rw [hrid2, List.append_assoc, ← hflat]
      exact hN
    have hck2 : ∀ k, k ∈ (runTasksInWave b cfg ts w recs c fs).cache →
        k.taskId ∈ recordIds (recs ++ (runTasksInWave b cfg ts w recs c fs).records) := by
      intro k hk
      rw [hrid2]
      exact hdomw k hk
    have hsucc2 : ∀ r, r ∈ (runWaves b cfg ts ws2
        (recs ++ (runTasksInWave b cfg ts w recs c fs).records)
        (runTasksInWave b cfg ts w recs c fs).cache
        (runTasksInWave b cfg ts w recs c fs).fs).records →
        r.status = TaskStatus.succeeded := by
      intro r hr
      apply hsucc
      rw [hout]
      exact hr
    intro t ht
    rw [List.flatten_cons] at ht
    rcases List.mem_append.mp ht with htw | ht2
    · -- t is in the first wave: its stored key survives to the end of the run
      rw [hout]
      have hstab : cacheKey (runWaves b cfg ts ws2
          (recs ++ (runTasksInWave b cfg ts w recs c fs).records)
          (runTasksInWave b cfg ts w recs c fs).cache
          (runTasksInWave b cfg ts w recs c fs).fs).fs t =
          cacheKey (runTasksInWave b cfg ts w recs c fs).fs t := by
        apply cacheKey_congr
        intro f hf
        by_contra hne
        obtain ⟨u, hu, hpu⟩ := waves_fs_writes ws2 _ _ _ f hne
        have hneid : u.id ≠ t.id := by
          intro he
          have hNr : (idsOf w ++ idsOf ws2.flatten).Nodup := by
            rw [← hflat]
            rw [List.nodup_append] at hN
            exact hN.2.1
          rw [List.nodup_append] at hNr
          exact hNr.2.2 (he ▸ mem_idsOf.mpr ⟨t, htw, rfl⟩) (mem_idsOf.mpr ⟨u, hu, rfl⟩)
        have hinf : u.id ∈ inferredDeps ts t :=
          mem_inferredDeps hdup (hsub2 u hu) hf hpu hneid
        have hdep : u.id ∈ depIds ts t := by
          rw [depIds]
          exact List.mem_append.mpr (Or.inr hinf)
        have h1 := hdepsw t htw u.id hdep
        have h2 : u.id ∈ idsOf ws2.flatten := mem_idsOf.mpr ⟨u, hu, rfl⟩
        rw [hflat] at hN
        rw [List.nodup_append] at hN
        rcases List.mem_append.mp h1 with h3 | h3
        · exact hN.2.2 h3 (List.mem_append.mpr (Or.inr h2))
        · have hNr : (idsOf w ++ idsOf ws2.flatten).Nodup := hN.2.1
          rw [List.nodup_append] at hNr
          exact hNr.2.2 h3 h2
      rw [hstab]
      exact waves_cache_mono ws2 _ _ _ _ (hkeysw t htw)
    · rw [hout]
      exact ih _ _ _ hsucc2 hN2 hck2 hsub2 t ht2

theorem reached_cachedOf (r : TaskRecord) : reachedSuccessB (cachedOf r) = true := rfl

theorem depsSat_transfer {recs : List TaskRecord} {ts : List Task} {t : Task}
    (h : depsSatisfiedB recs ts t = true) :
    depsSatisfiedB (recs.map cachedOf) ts t = true := by
  rw [depsSatisfiedB, List.all_eq_true] at h ⊢
  intro d hd
  have h2 := h d hd
  rw [List.any_eq_true] at h2 ⊢
  obtain ⟨r, hr, hb⟩ := h2
  rw [Bool.and_eq_true] at hb
  refine ⟨cachedOf r, List.mem_map.mpr ⟨r, hr, rfl⟩, ?_⟩
  rw [Bool.and_eq_true]
  exact ⟨hb.1, reached_cachedOf r⟩

theorem map_cachedOf_no_fail (l : List TaskRecord) :
    (l.map cachedOf).any (fun r => decide (r.status = TaskStatus.failed)) = false := by
  induction l with
  | nil => rfl
  | cons r m ih =>
    rw [List.map_cons, List.any_cons, ih]
    rfl

theorem wave2 (b b2 : Behavior) {cfg : RunConfig} {ts : List Task}
    (hcfg : cfg.cacheEnabled = true) :
    ∀ (wave : List Task) (recs : List TaskRecord) (c : Cache) (fs : Fs) (cS : Cache) (fsS : Fs),
      (∀ r, r ∈ (runTasksInWave b cfg ts wave recs c fs).records →
        r.status = TaskStatus.succeeded) →
      (∀ t, t ∈ wave → cacheKey fsS t ∈ cS) →
      runTasksInWave b2 cfg ts wave (recs.map cachedOf) cS fsS =
        ⟨(runTasksInWave b cfg ts wave recs c fs).records.map cachedOf, cS, fsS⟩ := by
  intro wave
  induction wave with
  | nil => intro recs c fs cS fsS _ _; rfl
  | cons t rest ih =>
    intro recs c fs cS fsS hsucc hkeys
    have hds : depsSatisfiedB recs ts t = true := by
      cases hds : depsSatisfiedB recs ts t with
      | true => rfl
      | false =>
        exfalso
        have hm : blockedRecord t ∈ (runTasksInWave b cfg ts (t :: rest) recs c fs).records := by
          rw [runTasksInWave, hds]
          simp only [Bool.false_eq_true, if_false]
          exact List.mem_cons_self _ _
        exact absurd (hsucc _ hm) (by simp [blockedRecord])
    have hrw1 : runTasksInWave b cfg ts (t :: rest) recs c fs =
        ⟨mkRecord t (coordinate b cfg c fs t).result ::
          (runTasksInWave b cfg ts rest (recs ++ [mkRecord t (coordinate b cfg c fs t).result])
            (coordinate b cfg c fs t).cache (coordinate b cfg c fs t).fs).records,
          (runTasksInWave b cfg ts rest (recs ++ [mkRecord t (coordinate b cfg c fs t).result])
            (coordinate b cfg c fs t).cache (coordinate b cfg c fs t).fs).cache,
          (runTasksInWave b cfg ts rest (recs ++ [mkRecord t (coordinate b cfg c fs t).result])
            (coordinate b cfg c fs t).cache (coordinate b cfg c fs t).fs).fs⟩ := by
      rw [runTasksInWave, hds]
      rfl
    have hds2 : depsSatisfiedB (recs.map cachedOf) ts t = true := depsSat_transfer hds
    have hhit : coordinate b2 cfg cS fsS t =
        ⟨⟨TaskStatus.skippedCached, 0, none, 0, 0, 0, false⟩, cS, fsS⟩ :=
      coordinate_hit hcfg (hkeys t (List.mem_cons_self t rest))
    have hrw2 : runTasksInWave b2 cfg ts (t :: rest) (recs.map cachedOf) cS fsS =
        ⟨mkRecord t (coordinate b2 cfg cS fsS t).result ::
          (runTasksInWave b2 cfg ts rest
            (recs.map cachedOf ++ [mkRecord t (coordinate b2 cfg cS fsS t).result])
            (coordinate b2 cfg cS fsS t).cache (coordinate b2 cfg cS fsS t).fs).records,
          (runTasksInWave b2 cfg ts rest
            (recs.map cachedOf ++ [mkRecord t (coordinate b2 cfg cS fsS t).result])
            (coordinate b2 cfg cS fsS t).cache (coordinate b2 cfg cS fsS t).fs).cache,
          (runTasksInWave b2 cfg ts rest
            (recs.map cachedOf ++ [mkRecord t (coordinate b2 cfg cS fsS t).result])
            (coordinate b2 cfg cS fsS t).cache (coordinate b2 cfg cS fsS t).fs).fs⟩ := by
      rw [runTasksInWave, hds2]
      rfl
    have hsucc2 : ∀ r, r ∈ (runTasksInWave b cfg ts rest
        (recs ++ [mkRecord t (coordinate b cfg c fs t).result])
        (coordinate b cfg c fs t).cache (coordinate b cfg c fs t).fs).records →
        r.status = TaskStatus.succeeded := by
      intro r hr
      apply hsucc
      rw [hrw1]
      exact List.mem_cons_of_mem _ hr
    have hkeys2 : ∀ u, u ∈ rest → cacheKey fsS u ∈ cS :=
      fun u hu => hkeys u (List.mem_cons_of_mem t hu)
    have harg : recs.map cachedOf ++ [mkRecord t (⟨⟨TaskStatus.skippedCached, 0, none, 0, 0, 0,
        false⟩, cS, fsS⟩ : StepOut).result] =
        (recs ++ [mkRecord t (coordinate b cfg c fs t).result]).map cachedOf := by
      rw [List.map_append]
      rfl
    rw [hrw2, hhit, hrw1]
    show (⟨mkRecord t (⟨⟨TaskStatus.skippedCached, 0, none, 0, 0, 0, false⟩, cS, fsS⟩ :
        StepOut).result ::
        (runTasksInWave b2 cfg ts rest
          (recs.map cachedOf ++ [mkRecord t (⟨⟨TaskStatus.skippedCached, 0, none, 0, 0, 0,
            false⟩, cS, fsS⟩ : StepOut).result]) cS fsS).records,
        (runTasksInWave b2 cfg ts rest
          (recs.map cachedOf ++ [mkRecord t (⟨⟨TaskStatus.skippedCached, 0, none, 0, 0, 0,
            false⟩, cS, fsS⟩ : StepOut).result]) cS fsS).cache,
        (runTasksInWave b2 cfg ts rest
          (recs.map cachedOf ++ [mkRecord t (⟨⟨TaskStatus.skippedCached, 0, none, 0, 0, 0,
            false⟩, cS, fsS⟩ : StepOut).result]) cS fsS).fs⟩ : WaveOut) = _
    rw [harg, ih _ (coordinate b cfg c fs t).cache (coordinate b cfg c fs t).fs cS fsS
      hsucc2 hkeys2]
    rfl

theorem waves_no_fail_no_abort {b : Behavior} {cfg : RunConfig} {ts : List Task} :
    ∀ (ws : List (List Task)) (recs : List TaskRecord) (c : Cache) (fs : Fs),
      (∀ r, r ∈ (runWaves b cfg ts ws recs c fs).records →
        r.status = TaskStatus.succeeded) →
      (runWaves b cfg ts ws recs c fs).aborted = false := by
  intro ws
  induction ws with
  | nil => intro recs c fs _; rfl
  | cons w ws2 ih =>
    intro recs c fs hsucc
    have hnofail := waves_step_no_fail hsucc
    have hout : runWaves b cfg ts (w :: ws2) recs c fs =
        runWaves b cfg ts ws2 (recs ++ (runTasksInWave b cfg ts w recs c fs).records)
          (runTasksInWave b cfg ts w recs c fs).cache
          (runTasksInWave b cfg ts w recs c fs).fs := by
      rw [runWaves_cons_eq, hnofail]
      rfl
    rw [hout]
    apply ih
    intro r hr
    apply hsucc
    rw [hout]
    exact hr

theorem waves2 (b b2 : Behavior) {cfg : RunConfig} {ts : List Task}
    (hcfg : cfg.cacheEnabled = true) :
    ∀ (ws : List (List Task)) (recs : List TaskRecord) (c : Cache) (fs : Fs),
      (∀ r, r ∈ (runWaves b cfg ts ws recs c fs).records →
        r.status = TaskStatus.succeeded) →
      (∀ t, t ∈ ws.flatten →
        cacheKey (runWaves b cfg ts ws recs c fs).fs t ∈
          (runWaves b cfg ts ws recs c fs).cache) →
      runWaves b2 cfg ts ws (recs.map cachedOf) (runWaves b cfg ts ws recs c fs).cache
          (runWaves b cfg ts ws recs c fs).fs =
        ⟨(runWaves b cfg ts ws recs c fs).records.map cachedOf, false,
          (runWaves b cfg ts ws recs c fs).cache, (runWaves b cfg ts ws recs c fs).fs⟩ := by
  intro ws
  induction ws with
  | nil => intro recs c fs _ _; rfl
  | cons w ws2 ih =>
    intro recs c fs hsucc hkeys
    have hnofail := waves_step_no_fail hsucc
    have hout : runWaves b cfg ts (w :: ws2) recs c fs =
        runWaves b cfg ts ws2 (recs ++ (runTasksInWave b cfg ts w recs c fs).records)
          (runTasksInWave b cfg ts w recs c fs).cache
          (runTasksInWave b cfg ts w recs c fs).fs := by
      rw [runWaves_cons_eq, hnofail]
      rfl
    have hsuccw : ∀ r, r ∈ (runTasksInWave b cfg ts w recs c fs).records →
        r.status = TaskStatus.succeeded :=
      fun r hr => hsucc r (waves_wave_mem hr)
    have hkeysw : ∀ t, t ∈ w →
        cacheKey (runWaves b cfg ts (w :: ws2) recs c fs).fs t ∈
          (runWaves b cfg ts (w :: ws2) recs c fs).cache := by
      intro t ht
      apply hkeys
      rw [List.flatten_cons]
      exact List.mem_append.mpr (Or.inl ht)
    have hw2 := wave2 b b2 hcfg w recs c fs (runWaves b cfg ts (w :: ws2) recs c fs).cache
      (runWaves b cfg ts (w :: ws2) recs c fs).fs hsuccw hkeysw
    rw [runWaves_cons_eq]
    rw [hw2]
    have hcond : ((⟨(runTasksInWave b cfg ts w recs c fs).records.map cachedOf,
        (runWaves b cfg ts (w :: ws2) recs c fs).cache,
        (runWaves b cfg ts (w :: ws2) recs c fs).fs⟩ : WaveOut)).records.any
        (fun r => decide (r.status = TaskStatus.failed)) = false :=
      map_cachedOf_no_fail _
    rw [hcond]
    show runWaves b2 cfg ts ws2
        (recs.map cachedOf ++ (runTasksInWave b cfg ts w recs c fs).records.map cachedOf)
        (runWaves b cfg ts (w :: ws2) recs c fs).cache
        (runWaves b cfg ts (w :: ws2) recs c fs).fs = _
    have harg : recs.map cachedOf ++ (runTasksInWave b cfg ts w recs c fs).records.map cachedOf =
        (recs ++ (runTasksInWave b cfg ts w recs c fs).records).map cachedOf :=
      (List.map_append cachedOf recs (runTasksInWave b cfg ts w recs c fs).records).symm
    rw [harg]
    have hsucc2 : ∀ r, r ∈ (runWaves b cfg ts ws2
        (recs ++ (runTasksInWave b cfg ts w recs c fs).records)
        (runTasksInWave b cfg ts w recs c fs).cache
        (runTasksInWave b cfg ts w recs c fs).fs).records →
        r.status = TaskStatus.succeeded := by
      intro r hr
      apply hsucc
      rw [hout]
      exact hr
    have hkeys2 : ∀ t, t ∈ ws2.flatten →
        cacheKey (runWaves b cfg ts ws2
          (recs ++ (runTasksInWave b cfg ts w recs c fs).records)
          (runTasksInWave b cfg ts w recs c fs).cache
          (runTasksInWave b cfg ts w recs c fs).fs).fs t ∈
        (runWaves b cfg ts ws2
          (recs ++ (runTasksInWave b cfg ts w recs c fs).records)
          (runTasksInWave b cfg ts w recs c fs).cache
          (runTasksInWave b cfg ts w recs c fs).fs).cache := by
      intro t ht
      rw [← hout]
      apply hkeys
      rw [List.flatten_cons]
      exact List.mem_append.mpr (Or.inr ht)
    have hih := ih (recs ++ (runTasksInWave b cfg ts w recs c fs).records)
      (runTasksInWave b cfg ts w recs c fs).cache
      (runTasksInWave b cfg ts w recs c fs).fs hsucc2 hkeys2
    rw [hout]
    exact hih

theorem layer_tasks_sub {ts : List Task} :
    ∀ fuel rem ws, layerAux ts fuel rem = Except.ok ws → ∀ u, u ∈ ws.flatten → u ∈ rem := by
  intro fuel
  induction fuel with
  | zero =>
    intro rem ws h u hu
    cases rem with
    | cons a l => cases h
    | nil =>
      have hws : ws = [] := by
        have h2 : Except.ok (ε := BuildError) ([] : List (List Task)) = Except.ok ws := h
        exact (Except.ok.injEq _ _).mp h2.symm ▸ rfl
      subst hws
      cases hu
  | succ n ih =>
    intro rem ws h u hu
    cases rem with
    | nil =>
      have hws : ws = [] := by
        have h2 : Except.ok (ε := BuildError) ([] : List (List Task)) = Except.ok ws := h
        exact (Except.ok.injEq _ _).mp h2.symm ▸ rfl
      subst hws
      cases hu
    | cons a l =>
      rw [layerAux_cons_eq] at h
      cases hemp : ((a :: l).filter (fun t => isReadyB ts (a :: l) t)).isEmpty with
      | true => rw [hemp] at h; simp at h
      | false =>
        rw [hemp] at h
        simp only [Bool.false_eq_true, if_false] at h
        cases hrec : layerAux ts n ((a :: l).filter (fun t => !(isReadyB ts (a :: l) t))) with
        | error e => rw [hrec] at h; cases h
        | ok ws2 =>
          rw [hrec] at h
          have hws : ws = (a :: l).filter (fun t => isReadyB ts (a :: l) t) :: ws2 := by
            cases h
            rfl
          subst hws
          rw [List.flatten_cons] at hu
          rcases List.mem_append.mp hu with h1 | h1
          · exact List.mem_of_mem_filter h1
          · exact List.mem_of_mem_filter (ih _ ws2 hrec u h1)

theorem layer_flatten_nodup {ts : List Task} :
    ∀ fuel rem ws, (idsOf rem).Nodup → layerAux ts fuel rem = Except.ok ws →
      (idsOf ws.flatten).Nodup := by
  intro fuel
  induction fuel with
  | zero =>
    intro rem ws hN h
    cases rem with
    | cons a l => cases h
    | nil =>
      have hws : ws = [] := by
        have h2 : Except.ok (ε := BuildError) ([] : List (List Task)) = Except.ok ws := h
        exact (Except.ok.injEq _ _).mp h2.symm ▸ rfl
      subst hws
      exact List.nodup_nil
  | succ n ih =>
    intro rem ws hN h
    cases rem with
    | nil =>
      have hws : ws = [] := by
        have h2 : Except.ok (ε := BuildError) ([] : List (List Task)) = Except.ok ws := h
        exact (Except.ok.injEq _ _).mp h2.symm ▸ rfl
      subst hws
      exact List.nodup_nil
    | cons a l =>
      rw [layerAux_cons_eq] at h
      cases hemp : ((a :: l).filter (fun t => isReadyB ts (a :: l) t)).isEmpty with
      | true => rw [hemp] at h; simp at h
      | false =>
        rw [hemp] at h
        simp only [Bool.false_eq_true, if_false] at h
        cases hrec : layerAux ts n ((a :: l).filter (fun t => !(isReadyB ts (a :: l) t))) with
        | error e => rw [hrec] at h; cases h
        | ok ws2 =>
          rw [hrec] at h
          have hws : ws = (a :: l).filter (fun t => isReadyB ts (a :: l) t) :: ws2 := by
            cases h
            rfl
          subst hws
          rw [List.flatten_cons, idsOf_append]
          rw [List.nodup_append]
          refine ⟨idsOf_filter_nodup hN, ih _ ws2 (idsOf_filter_nodup hN) hrec, ?_⟩
          intro i h1 h2
          obtain ⟨x, hx, hxi⟩ := mem_idsOf.mp h1
          obtain ⟨y, hy, hyi⟩ := mem_idsOf.mp h2
          have hy2 := layer_tasks_sub n _ ws2 hrec y hy
          obtain ⟨hx1, hx2⟩ := List.mem_filter.mp hx
          obtain ⟨hy1, hy2b⟩ := List.mem_filter.mp hy2
          have hxy : x = y :=
            List.inj_on_of_nodup_map hN hx1 hy1 (by rw [hxi, hyi])
          subst hxy
          rw [hx2] at hy2b
          exact Bool.noConfusion hy2b

/-- C4 (amended): cache idempotence for successful runs.  For a task set
with distinct ids, if a first run from an empty cache returns with every
record Succeeded, then the first run did not abort, and a second run of
the same task set from the first run's final cache and file system — under
ANY behavior of the external Executor and Verifier, so in particular with
zero executor and verifier invocations — returns every task
Skipped(cached) with zero retries and zero invocation counts, does not
abort, and leaves the cache and file system exactly as the first run left
them.  As frozen the claim fails when a first-run task does not succeed;
see the counterexample. -/
theorem c4_cache_idempotence (b b2 : Behavior) (cfg : RunConfig) (ts : List Task)
    (fs0 : Fs) (res1 : RunResult)
    (hcfg : cfg.cacheEnabled = true)
    (hN : (idsOf ts).Nodup)
    (hrun1 : runWorkflow b cfg fs0 [] ts = Except.ok res1)
    (hsucc : ∀ r, r ∈ res1.records → r.status = TaskStatus.succeeded) :
    res1.aborted = false ∧
    runWorkflow b2 cfg res1.fs res1.cache ts =
      Except.ok ⟨res1.records.map cachedOf, false, res1.cache, res1.fs⟩ := by
  have hdup : dupProducer ts = none := by
    unfold runWorkflow Build at hrun1
    cases hd : dupProducer ts with
    | none => rfl
    | some x =>
      obtain ⟨f, i, j⟩ := x
      rw [hd] at hrun1
      exact Except.noConfusion hrun1
  have hlayer : ∃ waves, Layer ts = Except.ok waves := by
    unfold runWorkflow Build at hrun1
    rw [hdup] at hrun1
    cases hl : Layer ts with
    | error e =>
      rw [hl] at hrun1
      exact Except.noConfusion hrun1
    | ok waves => exact ⟨waves, rfl⟩
  obtain ⟨waves, hl⟩ := hlayer
  have hres : res1 = runWaves b cfg ts waves [] [] fs0 := by
    unfold runWorkflow Build at hrun1
    rw [hdup, hl] at hrun1
    have h2 : (Except.ok (runWaves b cfg ts waves [] [] fs0) :
        Except BuildError RunResult) = Except.ok res1 := hrun1
    injection h2 with h
    exact h.symm
  subst hres
  have hNflat : (recordIds ([] : List TaskRecord) ++ idsOf waves.flatten).Nodup :=
    layer_flatten_nodup ts.length ts waves hN hl
  have hsub : ∀ u, u ∈ waves.flatten → u ∈ ts :=
    fun u hu => layer_tasks_sub ts.length ts waves hl u hu
  have hck : ∀ k, k ∈ ([] : Cache) → k.taskId ∈ recordIds ([] : List TaskRecord) := by
    intro k hk
    cases hk
  have hkeys := keysWaves hdup waves [] [] fs0 hsucc hNflat hck hsub
  have hmain := waves2 b b2 hcfg waves [] [] fs0 hsucc hkeys
  refine ⟨waves_no_fail_no_abort waves [] [] fs0 hsucc, ?_⟩
  have hgoal : runWorkflow b2 cfg (runWaves b cfg ts waves [] [] fs0).fs
      (runWaves b cfg ts waves [] [] fs0).cache ts =
      Except.ok (runWaves b2 cfg ts waves []
        (runWaves b cfg ts waves [] [] fs0).cache (runWaves b cfg ts waves [] [] fs0).fs) := by
    unfold runWorkflow Build
    rw [hdup, hl]
  rw [hgoal]
  exact congrArg Except.ok hmain

/-- Counterexample to C4 as frozen: a run whose single task fails stores
nothing in the cache, so the second run re-invokes the Executor and the
Verifier once more and marks the task Failed, not Skipped(cached), even
though the task set and the input files are unchanged. -/
theorem c4_counterexample :
    ∃ res1, runWorkflow cexB cexCfg cexFs [] [cexT] = Except.ok res1 ∧
      ∃ res2, runWorkflow cexB cexCfg res1.fs res1.cache [cexT] = Except.ok res2 ∧
        ∃ r, r ∈ res2.records ∧ r.status = TaskStatus.failed ∧
          r.execCalls = 1 ∧ r.verifyCalls = 1 := by
  refine ⟨_, rfl, _, rfl, _, List.mem_cons_self _ _, rfl, rfl, rfl⟩

/-- Witness for C4 at the spec's Scenario A task set under an
always-succeeding behavior: the first run succeeds, and the second run
from its final state replays both records as Skipped(cached) while
touching neither the cache nor the file system. -/
theorem c4_cache_idempotence_witness :
    ∃ res1, runWorkflow cokB cexCfg cexFs [] exTs = Except.ok res1 ∧
      res1.aborted = false ∧
      runWorkflow cokB cexCfg res1.fs res1.cache exTs =
        Except.ok ⟨res1.records.map cachedOf, false, res1.cache, res1.fs⟩ :=
  ⟨_, rfl, c4_cache_idempotence cokB cokB cexCfg exTs cexFs _ rfl (by decide) rfl (by decide)⟩

end Sago
